import Mathlib

/-!
Verification of the song-arranger quantization pipeline
(`src/services/audio-service/app/services/song_arranger_service.py`).

The Python source works over floats, but every value the pipeline produces is
a small dyadic rational (standard durations are `4, 2, 1, 1/2, 1/4, 1/8`),
so we embed the arithmetic in `ℚ`.  Python's `round` rounds half to even
("banker's rounding"); `bankerRound` models it exactly.  Python `while`
loops are embedded as fuel-indexed structural recursions whose fuel is an
upper bound on the number of iterations the loop can perform (the gap-filler
loop carries an explicit 50-iteration cap in the source, and the octave
loops shift by 12 per iteration, so `(p - high).toNat` iterations suffice).
-/

set_option maxRecDepth 8000

/-- Python's `round`: round half to even, as used by `round(value)` on the
exact rational value. -/
def bankerRound (q : ℚ) : ℤ :=
  let f := ⌊q⌋
  let r := q - f
  if r < 1/2 then f
  else if 1/2 < r then f + 1
  else if 2 ∣ f then f else f + 1

/-- `round(x * 1000) / 1000`, the 3-decimal rounding the gap filler applies
before each comparison. -/
def round3 (q : ℚ) : ℚ :=
  (bankerRound (q * 1000) : ℚ) / 1000

/-- A value representable with 3 decimal places (fixed point of `round3`). -/
def dec3 (q : ℚ) : Prop := ∃ m : ℤ, q * 1000 = m

/-- `CleanNote` from the source: a note or rest with a standard duration at
an exact quarter-note position. -/
structure CleanNote where
  offset : ℚ
  duration : ℚ
  midiPitch : Option ℤ
  isRest : Bool
  deriving DecidableEq, Repr

instance : Inhabited CleanNote := ⟨⟨0, 0, none, false⟩⟩

/-- `end_offset` of a `CleanNote`. -/
def CleanNote.endOffset (n : CleanNote) : ℚ := n.offset + n.duration

/-- The dot-free standard duration list `simple_durations` used by
`_snap_to_standard_duration` and `_create_rests_for_duration`. -/
def simpleDurations : List ℚ := [4, 2, 1, 1/2, 1/4, 1/8]

/-- The three per-tier grid units (`GRID`). -/
def tierGrids : List ℚ := [1/2, 1/4, 1/8]

/-- `_snap_to_grid`: snap a value to the nearest grid point
(`round(value / grid) * grid`). -/
def snapToGrid (value grid : ℚ) : ℚ :=
  (bankerRound (value / grid) : ℚ) * grid

/-- Python's `min(..., key=lambda d: abs(d - target))` over a non-empty list:
fold keeping the current best, replacing it only on a strictly smaller key,
so the first element attaining the minimum wins. -/
def pickClosest (target : ℚ) : ℚ → List ℚ → ℚ
  | best, [] => best
  | best, x :: xs =>
      pickClosest target (if |x - target| < |best - target| then x else best) xs

/-- `_snap_to_standard_duration dur min_dur`. -/
def snapToStandardDuration (dur minDur : ℚ) : ℚ :=
  let d := max dur minDur
  match simpleDurations.filter (fun v => minDur ≤ v) with
  | [] => minDur
  | v :: vs => pickClosest d v vs

/-- The loop `while pitch > high: pitch -= 12`, with enough fuel: each pass
decreases `pitch - high` by 12, so `(p - high).toNat` iterations always
suffice to leave the loop. -/
def octaveDown (high : ℤ) : ℕ → ℤ → ℤ
  | 0, p => p
  | f + 1, p => if high < p then octaveDown high f (p - 12) else p

/-- The loop `while pitch < low: pitch += 12`, fuelled like `octaveDown`. -/
def octaveUp (low : ℤ) : ℕ → ℤ → ℤ
  | 0, p => p
  | f + 1, p => if p < low then octaveUp low f (p + 12) else p

/-- `_constrain_pitch`: octave shifts into range, then a hard clamp. -/
def constrainPitch (p : ℤ) (range : ℤ × ℤ) : ℤ :=
  let p1 := octaveDown range.2 (p - range.2).toNat p
  let p2 := octaveUp range.1 (range.1 - p1).toNat p1
  max range.1 (min range.2 p2)

/-- `_remove_overlaps`: truncate any note whose span crosses the next note's
offset, re-snap the truncated duration, drop it if the snap falls below the
grid; the last note is kept unchanged. -/
def removeOverlaps : List CleanNote → ℚ → List CleanNote
  | [], _ => []
  | [n], _ => [n]
  | n :: m :: rest, g =>
      (if m.offset < n.offset + n.duration then
        let nd := snapToStandardDuration (m.offset - n.offset) g
        if g ≤ nd then
          [{ offset := n.offset, duration := nd, midiPitch := n.midiPitch,
             isRest := false }]
        else []
      else [n]) ++ removeOverlaps (m :: rest) g

/-- The duplicate-removal loop of `_quantize_events`: keep a note only when
its offset differs from the last kept offset by more than `0.01`. -/
def dedupByOffset : ℚ → List CleanNote → List CleanNote
  | _, [] => []
  | last, n :: ns =>
      if 1/100 < |n.offset - last| then n :: dedupByOffset n.offset ns
      else dedupByOffset last ns

/-- Offset order on clean notes (the `key=lambda n: n.offset` sort). -/
def leOff (a b : CleanNote) : Prop := a.offset ≤ b.offset

instance : DecidableRel leOff := fun a b =>
  inferInstanceAs (Decidable (a.offset ≤ b.offset))

instance : IsTotal CleanNote leOff := ⟨fun a b => le_total a.offset b.offset⟩

instance : IsTrans CleanNote leOff :=
  ⟨fun _ _ _ h h' => le_trans (α := ℚ) h h'⟩

/-- The offset grid chosen by `_quantize_events`:
`1.0 if grid >= 0.25 else 0.5`. -/
def offsetGridOf (grid : ℚ) : ℚ := if 1/4 ≤ grid then 1 else 1/2

/-- `_quantize_events`: snap offsets to the coarser offset grid, snap
durations to standard values, transpose and constrain pitches, sort by
offset (Python's sort is stable; on this preorder any stable sort computes
the same list as insertion sort), deduplicate, and remove overlaps. -/
def quantizeEvents (events : List (ℚ × ℚ × ℤ)) (grid : ℚ)
    (transposition : ℤ) (range : ℤ × ℤ) : List CleanNote :=
  let og := offsetGridOf grid
  let clean := events.map fun e =>
    { offset := snapToGrid e.1 og
      duration := snapToStandardDuration e.2.1 grid
      midiPitch := some (constrainPitch (e.2.2 + transposition) range)
      isRest := false }
  let sorted := clean.insertionSort leOff
  removeOverlaps (dedupByOffset (-1) sorted) grid

/-- The inner `for std_dur in simple_durations: ... break` of
`_create_rests_for_duration`, unrolled over the literal list: the first
standard value that is `<= remaining + 0.001` and `>= grid`, defaulting to
`grid`. -/
def pickRestDuration (grid remaining : ℚ) : ℚ :=
  if 4 ≤ remaining + 1/1000 ∧ grid ≤ 4 then 4
  else if 2 ≤ remaining + 1/1000 ∧ grid ≤ 2 then 2
  else if 1 ≤ remaining + 1/1000 ∧ grid ≤ 1 then 1
  else if 1/2 ≤ remaining + 1/1000 ∧ grid ≤ 1/2 then 1/2
  else if 1/4 ≤ remaining + 1/1000 ∧ grid ≤ 1/4 then 1/4
  else if 1/8 ≤ remaining + 1/1000 ∧ grid ≤ 1/8 then 1/8
  else grid

/-- The rest-synthesis loop
`while remaining >= grid - 0.001 and iteration < 50`, with
`fuel = 50 - iteration`. -/
def restLoop (grid : ℚ) : ℕ → ℚ → ℚ → List CleanNote
  | 0, _, _ => []
  | fuel + 1, current, remaining =>
      if grid - 1/1000 ≤ remaining then
        let rd := pickRestDuration grid remaining
        { offset := current, duration := rd, midiPitch := none,
          isRest := true } ::
          restLoop grid fuel (round3 (current + rd)) (round3 (remaining - rd))
      else []

/-- `_create_rests_for_duration`. -/
def createRestsForDuration (startOffset totalDuration grid : ℚ) :
    List CleanNote :=
  restLoop grid 50 (round3 startOffset) (round3 totalDuration)

/-- The body of `_fill_gaps_with_rests` as a recursion over the note list,
carrying `current_time`. -/
def fillLoop (grid : ℚ) : ℚ → List CleanNote → List CleanNote
  | _, [] => []
  | t, n :: ns =>
      let no := round3 n.offset
      let t0 := round3 t
      let gap := no - t0
      if grid - 1/1000 ≤ gap then
        let rs := createRestsForDuration t0 gap grid
        let t1 := match rs.getLast? with
          | some r => round3 (r.offset + r.duration)
          | none => t0
        if t1 - 1/1000 ≤ no then
          rs ++ { offset := no, duration := n.duration,
                  midiPitch := n.midiPitch, isRest := false } ::
            fillLoop grid (round3 (no + n.duration)) ns
        else rs ++ fillLoop grid t1 ns
      else
        if t0 - 1/1000 ≤ no then
          { offset := no, duration := n.duration, midiPitch := n.midiPitch,
            isRest := false } :: fillLoop grid (round3 (no + n.duration)) ns
        else fillLoop grid t0 ns

/-- `_fill_gaps_with_rests`. -/
def fillGapsWithRests (notes : List CleanNote) (grid : ℚ) : List CleanNote :=
  match notes with
  | [] => []
  | _ => fillLoop grid 0 notes

/-- The difficulty tiers. -/
inductive Difficulty
  | beginner
  | intermediate
  | advanced
  deriving DecidableEq, Repr

/-- Fuelled floor-log2 on naturals: for `1 ≤ n < 2^fuel`,
`floorLog2Aux fuel n` is the position of the highest set bit of `n` (each
pass halves `n`, so 64 units of fuel cover every value this file forms). -/
def floorLog2Aux : ℕ → ℕ → ℕ
  | 0, _ => 0
  | f + 1, n => if n ≤ 1 then 0 else floorLog2Aux f (n / 2) + 1

/-- IEEE binary64 round-to-nearest, ties-to-even, applied to the exact
rational value of an arithmetic result.  Valid for `q = 0` and for
`1/2 ≤ q < 2^53` — the range of every tempo product the program forms
(`base * tempoMult` with an integer base below `2^53`): scale `q` so the
integer lands in the 53-bit mantissa window, round half-to-even with
`bankerRound`, and scale back.  (Magnitudes below `1/2` or at/above `2^53`
would need other exponents; they never arise here.) -/
def doubleRound (q : ℚ) : ℚ :=
  if q ≤ 0 then 0
  else
    let k : ℕ := if q < 1 then 53 else 52 - floorLog2Aux 64 ⌊q⌋.toNat
    (bankerRound (q * 2 ^ k) : ℚ) / 2 ^ k

/-- `TEMPO_MULT`: the exact rational values of the IEEE binary64 doubles
the literals `0.70`, `0.85`, `1.0` denote.  `0.7` and `0.85` are not
exactly representable: the double `0.7` is `3152519739159347 / 2^52`
(strictly below `7/10`) and the double `0.85` is
`7656119366529843 / 2^53` (strictly below `17/20`). -/
def tempoMultOf : Difficulty → ℚ
  | .beginner => 3152519739159347 / 4503599627370496
  | .intermediate => 7656119366529843 / 9007199254740992
  | .advanced => 1

/-- The tier multipliers as the source text writes them — the exact
decimals `0.70`, `0.85`, `1.0` that exact-rational arithmetic would use;
kept for comparison with the binary64 values `tempoMultOf` the program
actually multiplies with. -/
def tempoMultSpec : Difficulty → ℚ
  | .beginner => 7/10
  | .intermediate => 17/20
  | .advanced => 1

/-- Python's `int()` applied to a real value: truncation toward zero. -/
def pyInt (q : ℚ) : ℤ := if q < 0 then ⌈q⌉ else ⌊q⌋

/-- The tier tempo computed by `_build_score`:
`int(meta.tempo * tempo_mult)`.  `meta.tempo` is a Python int, converted
exactly to binary64 (every tempo is far below `2^53`); the product with
the double multiplier is rounded to the nearest double; `int()` then
truncates toward zero. -/
def tierTempo (baseTempo : ℤ) (d : Difficulty) : ℤ :=
  pyInt (doubleRound ((baseTempo : ℚ) * tempoMultOf d))

/-- Read a clean note back as a raw `(offset, duration, pitch)` event. -/
def toRaw (n : CleanNote) : ℚ × ℚ × ℤ :=
  (n.offset, n.duration, n.midiPitch.getD 0)

/-- `tiles t l u`: the events of `l` cover `[t, u)` contiguously — the first
starts at `t`, each next one starts where the previous ends, the last ends
at `u`. -/
def tiles : ℚ → List CleanNote → ℚ → Prop
  | t, [], u => t = u
  | t, e :: es, u => e.offset = t ∧ tiles (t + e.duration) es u

/-- `coversFrom t l`: the events of `l` are contiguous starting exactly at
`t`. -/
def coversFrom : ℚ → List CleanNote → Prop
  | _, [] => True
  | t, e :: es => e.offset = t ∧ coversFrom (t + e.duration) es

theorem bankerRound_intCast (m : ℤ) : bankerRound (m : ℚ) = m := by
  simp [bankerRound]

theorem bankerRound_le (q : ℚ) : (bankerRound q : ℚ) ≤ q + 1/2 := by
  have h1 : ((⌊q⌋ : ℤ) : ℚ) ≤ q := Int.floor_le q
  have h2 : q < (⌊q⌋ : ℚ) + 1 := Int.lt_floor_add_one q
  unfold bankerRound
  dsimp only
  split_ifs <;> push_cast <;> linarith

theorem le_bankerRound (q : ℚ) : q - 1/2 ≤ (bankerRound q : ℚ) := by
  have h1 : ((⌊q⌋ : ℤ) : ℚ) ≤ q := Int.floor_le q
  have h2 : q < (⌊q⌋ : ℚ) + 1 := Int.lt_floor_add_one q
  unfold bankerRound
  dsimp only
  split_ifs <;> push_cast <;> linarith

theorem bankerRound_nonneg {q : ℚ} (h : 0 ≤ q) : 0 ≤ bankerRound q := by
  have h1 : (0 : ℤ) ≤ ⌊q⌋ := Int.floor_nonneg.mpr h
  unfold bankerRound
  dsimp only
  split_ifs <;> omega

theorem round3_eq_self {q : ℚ} (h : dec3 q) : round3 q = q := by
  obtain ⟨m, hm⟩ := h
  have hq : q = (m : ℚ) / 1000 := by
    field_simp
    linarith [hm]
  rw [round3, hm, bankerRound_intCast, ← hq]

theorem dec3_round3 (q : ℚ) : dec3 (round3 q) := by
  refine ⟨bankerRound (q * 1000), ?_⟩
  rw [round3]
  field_simp

theorem dec3_add {a b : ℚ} (ha : dec3 a) (hb : dec3 b) : dec3 (a + b) := by
  obtain ⟨m, hm⟩ := ha
  obtain ⟨n, hn⟩ := hb
  exact ⟨m + n, by push_cast; linarith⟩

theorem dec3_sub {a b : ℚ} (ha : dec3 a) (hb : dec3 b) : dec3 (a - b) := by
  obtain ⟨m, hm⟩ := ha
  obtain ⟨n, hn⟩ := hb
  exact ⟨m - n, by push_cast; linarith⟩

theorem tierGrids_cases {g : ℚ} (h : g ∈ tierGrids) :
    g = 1/2 ∨ g = 1/4 ∨ g = 1/8 := by
  simpa [tierGrids] using h

theorem tierGrid_pos {g : ℚ} (h : g ∈ tierGrids) : 0 < g := by
  rcases tierGrids_cases h with h | h | h <;> rw [h] <;> norm_num

theorem tierGrid_small {g : ℚ} (h : g ∈ tierGrids) : 1/1000 < g := by
  rcases tierGrids_cases h with h | h | h <;> rw [h] <;> norm_num

theorem tierGrid_mem_simple {g : ℚ} (h : g ∈ tierGrids) :
    g ∈ simpleDurations := by
  rcases tierGrids_cases h with h | h | h <;> rw [h] <;>
    simp [simpleDurations]

theorem tierGrid_thousand {g : ℚ} (h : g ∈ tierGrids) :
    ∃ c : ℤ, 0 < c ∧ (g : ℚ) * 1000 = c := by
  rcases tierGrids_cases h with h | h | h <;> rw [h]
  · exact ⟨500, by norm_num⟩
  · exact ⟨250, by norm_num⟩
  · exact ⟨125, by norm_num⟩

theorem dec3_int_mul_grid {g : ℚ} (h : g ∈ tierGrids) (k : ℤ) :
    dec3 ((k : ℚ) * g) := by
  obtain ⟨c, _, hc⟩ := tierGrid_thousand h
  exact ⟨k * c, by push_cast; rw [mul_assoc, hc]⟩

theorem dec3_nat_mul_grid {g : ℚ} (h : g ∈ tierGrids) (k : ℕ) :
    dec3 ((k : ℚ) * g) := by
  simpa using dec3_int_mul_grid h (k : ℤ)

theorem pickClosest_mem (t b : ℚ) (xs : List ℚ) :
    pickClosest t b xs ∈ b :: xs := by
  induction xs generalizing b with
  | nil => simp [pickClosest]
  | cons x xs ih =>
      rw [pickClosest]
      rcases List.mem_cons.mp (ih (if |x - t| < |b - t| then x else b)) with
        h | h
      · rw [h]
        split_ifs <;> simp
      · simp [h]

theorem pickClosest_self (t : ℚ) (xs : List ℚ) : pickClosest t t xs = t := by
  induction xs with
  | nil => rfl
  | cons x xs ih =>
      rw [pickClosest]
      have : ¬ |x - t| < |t - t| := by
        simp [abs_nonneg]
      simp only [this, if_false]
      exact ih

theorem pickClosest_eq_self {t b : ℚ} {xs : List ℚ} (h : t ∈ b :: xs) :
    pickClosest t b xs = t := by
  induction xs generalizing b with
  | nil =>
      rcases List.mem_cons.mp h with h | h
      · rw [h]; rfl
      · simp at h
  | cons x xs ih =>
      rw [pickClosest]
      rcases List.mem_cons.mp h with hb | hx
      · subst hb
        have : ¬ |x - t| < |t - t| := by simp [abs_nonneg]
        simp only [this, if_false]
        exact pickClosest_self t xs
      · rcases List.mem_cons.mp hx with hx1 | hx2
        · subst hx1
          by_cases hc : |t - t| < |b - t|
          · simp only [hc, if_true]
            exact pickClosest_self t xs
          · have : |b - t| = 0 := by
              have := abs_nonneg (b - t)
              simp only [sub_self, abs_zero] at hc
              linarith
            have hbt : b = t := by
              have := abs_eq_zero.mp this
              linarith
            subst hbt
            simp only [ite_self]
            exact pickClosest_self b xs
        · exact ih (List.mem_cons_of_mem _ hx2)

theorem simpleDurations_cases {d : ℚ} (h : d ∈ simpleDurations) :
    d = 4 ∨ d = 2 ∨ d = 1 ∨ d = 1/2 ∨ d = 1/4 ∨ d = 1/8 := by
  simpa [simpleDurations] using h

theorem snapToStandardDuration_ge (dur minDur : ℚ) :
    minDur ≤ snapToStandardDuration dur minDur := by
  rw [snapToStandardDuration]
  split
  · exact le_refl _
  · next v vs heq =>
      have hmem : pickClosest (max dur minDur) v vs ∈ v :: vs :=
        pickClosest_mem _ _ _
      rw [← heq] at hmem
      have := List.mem_filter.mp hmem
      simpa using this.2

theorem snapToStandardDuration_mem {minDur : ℚ} (dur : ℚ)
    (h4 : minDur ≤ 4) :
    snapToStandardDuration dur minDur ∈ simpleDurations := by
  have hf : (4 : ℚ) ∈ simpleDurations.filter (fun v => minDur ≤ v) :=
    List.mem_filter.mpr ⟨by simp [simpleDurations], by simpa⟩
  rw [snapToStandardDuration]
  split
  · next heq => rw [heq] at hf; simp at hf
  · next v vs heq =>
      have hmem : pickClosest (max dur minDur) v vs ∈ v :: vs :=
        pickClosest_mem _ _ _
      rw [← heq] at hmem
      exact (List.mem_filter.mp hmem).1

theorem snapToStandardDuration_fix {d minDur : ℚ} (hd : d ∈ simpleDurations)
    (hge : minDur ≤ d) : snapToStandardDuration d minDur = d := by
  have hdf : d ∈ simpleDurations.filter (fun v => minDur ≤ v) :=
    List.mem_filter.mpr ⟨hd, by simpa⟩
  rw [snapToStandardDuration]
  split
  · next heq => rw [heq] at hdf; simp at hdf
  · next v vs heq =>
      rw [heq] at hdf
      rw [max_eq_left hge]
      exact pickClosest_eq_self hdf

theorem simple_nat_mul {g d : ℚ} (hg : g ∈ tierGrids)
    (hd : d ∈ simpleDurations) (hge : g ≤ d) :
    ∃ c : ℕ, 1 ≤ c ∧ d = (c : ℚ) * g := by
  rcases tierGrids_cases hg with hg1 | hg1 | hg1 <;>
    rcases simpleDurations_cases hd with hd1 | hd1 | hd1 | hd1 | hd1 | hd1 <;>
    subst hg1 <;> subst hd1 <;>
    first
      | (refine ⟨32, ?_, ?_⟩ <;> (norm_num; done))
      | (refine ⟨16, ?_, ?_⟩ <;> (norm_num; done))
      | (refine ⟨8, ?_, ?_⟩ <;> (norm_num; done))
      | (refine ⟨4, ?_, ?_⟩ <;> (norm_num; done))
      | (refine ⟨2, ?_, ?_⟩ <;> (norm_num; done))
      | (refine ⟨1, ?_, ?_⟩ <;> (norm_num; done))
      | (exfalso; revert hge; norm_num)

theorem constrainPitch_mem {p lo hi : ℤ} (h : lo ≤ hi) :
    lo ≤ constrainPitch p (lo, hi) ∧ constrainPitch p (lo, hi) ≤ hi := by
  unfold constrainPitch
  dsimp only
  exact ⟨le_max_left _ _, max_le h (min_le_left _ _)⟩

theorem constrainPitch_id {p lo hi : ℤ} (h1 : lo ≤ p) (h2 : p ≤ hi) :
    constrainPitch p (lo, hi) = p := by
  unfold constrainPitch
  dsimp only
  have hd : (p - hi).toNat = 0 := by omega
  rw [hd]
  simp only [octaveDown]
  have hu : (lo - p).toNat = 0 := by omega
  rw [hu]
  simp only [octaveUp]
  omega

theorem pickRestDuration_props {g : ℚ} (hg : g ∈ tierGrids) (r : ℚ) :
    pickRestDuration g r ∈ simpleDurations ∧ g ≤ pickRestDuration g r := by
  unfold pickRestDuration
  split_ifs with h1 h2 h3 h4 h5 h6
  · exact ⟨by simp [simpleDurations], h1.2⟩
  · exact ⟨by simp [simpleDurations], h2.2⟩
  · exact ⟨by simp [simpleDurations], h3.2⟩
  · exact ⟨by simp [simpleDurations], h4.2⟩
  · exact ⟨by simp [simpleDurations], h5.2⟩
  · exact ⟨by simp [simpleDurations], h6.2⟩
  · exact ⟨tierGrid_mem_simple hg, le_refl g⟩

theorem pickRestDuration_spec {g : ℚ} (hg : g ∈ tierGrids) {k : ℕ}
    (hk : 1 ≤ k) :
    ∃ j : ℕ, 1 ≤ j ∧ j ≤ k ∧
      pickRestDuration g ((k : ℚ) * g) = (j : ℚ) * g ∧
      ((4 : ℚ) ≤ (k : ℚ) * g → pickRestDuration g ((k : ℚ) * g) = 4) := by
  have hk1 : (1 : ℚ) ≤ (k : ℚ) := by exact_mod_cast hk
  rcases tierGrids_cases hg with hg1 | hg1 | hg1 <;> subst hg1 <;>
    unfold pickRestDuration <;> split_ifs with h1 h2 h3 h4 h5 h6
  · have h7 : 7 < k := by
      have : (7:ℚ) < (k:ℚ) := by linarith [h1.1]
      exact_mod_cast this
    exact ⟨8, by norm_num, by omega, by norm_num, fun _ => rfl⟩
  · have h3' : 3 < k := by
      have : (3:ℚ) < (k:ℚ) := by linarith [h2.1]
      exact_mod_cast this
    exact ⟨4, by norm_num, by omega, by norm_num,
      fun hx => absurd ⟨by linarith, by norm_num⟩ h1⟩
  · have h1' : 1 < k := by
      have : (1:ℚ) < (k:ℚ) := by linarith [h3.1]
      exact_mod_cast this
    exact ⟨2, by norm_num, by omega, by norm_num,
      fun hx => absurd ⟨by linarith, by norm_num⟩ h1⟩
  · exact ⟨1, le_refl 1, hk, by norm_num,
      fun hx => absurd ⟨by linarith, by norm_num⟩ h1⟩
  · exact absurd h5.2 (by norm_num)
  · exact absurd h6.2 (by norm_num)
  · exact absurd (And.intro (by linarith : (1:ℚ)/2 ≤ (k:ℚ) * (1/2) + 1/1000)
      (by norm_num : (1:ℚ)/2 ≤ 1/2)) h4
  · have h15 : 15 < k := by
      have : (15:ℚ) < (k:ℚ) := by linarith [h1.1]
      exact_mod_cast this
    exact ⟨16, by norm_num, by omega, by norm_num, fun _ => rfl⟩
  · have h7 : 7 < k := by
      have : (7:ℚ) < (k:ℚ) := by linarith [h2.1]
      exact_mod_cast this
    exact ⟨8, by norm_num, by omega, by norm_num,
      fun hx => absurd ⟨by linarith, by norm_num⟩ h1⟩
  · have h3' : 3 < k := by
      have : (3:ℚ) < (k:ℚ) := by linarith [h3.1]
      exact_mod_cast this
    exact ⟨4, by norm_num, by omega, by norm_num,
      fun hx => absurd ⟨by linarith, by norm_num⟩ h1⟩
  · have h1' : 1 < k := by
      have : (1:ℚ) < (k:ℚ) := by linarith [h4.1]
      exact_mod_cast this
    exact ⟨2, by norm_num, by omega, by norm_num,
      fun hx => absurd ⟨by linarith, by norm_num⟩ h1⟩
  · exact ⟨1, le_refl 1, hk, by norm_num,
      fun hx => absurd ⟨by linarith, by norm_num⟩ h1⟩
  · exact absurd h6.2 (by norm_num)
  · exact absurd (And.intro (by linarith : (1:ℚ)/4 ≤ (k:ℚ) * (1/4) + 1/1000)
      (by norm_num : (1:ℚ)/4 ≤ 1/4)) h5
  · have h31 : 31 < k := by
      have : (31:ℚ) < (k:ℚ) := by linarith [h1.1]
      exact_mod_cast this
    exact ⟨32, by norm_num, by omega, by norm_num, fun _ => rfl⟩
  · have h15 : 15 < k := by
      have : (15:ℚ) < (k:ℚ) := by linarith [h2.1]
      exact_mod_cast this
    exact ⟨16, by norm_num, by omega, by norm_num,
      fun hx => absurd ⟨by linarith, by norm_num⟩ h1⟩
  · have h7 : 7 < k := by
      have : (7:ℚ) < (k:ℚ) := by linarith [h3.1]
      exact_mod_cast this
    exact ⟨8, by norm_num, by omega, by norm_num,
      fun hx => absurd ⟨by linarith, by norm_num⟩ h1⟩
  · have h3' : 3 < k := by
      have : (3:ℚ) < (k:ℚ) := by linarith [h4.1]
      exact_mod_cast this
    exact ⟨4, by norm_num, by omega, by norm_num,
      fun hx => absurd ⟨by linarith, by norm_num⟩ h1⟩
  · have h1' : 1 < k := by
      have : (1:ℚ) < (k:ℚ) := by linarith [h5.1]
      exact_mod_cast this
    exact ⟨2, by norm_num, by omega, by norm_num,
      fun hx => absurd ⟨by linarith, by norm_num⟩ h1⟩
  · exact ⟨1, le_refl 1, hk, by norm_num,
      fun hx => absurd ⟨by linarith, by norm_num⟩ h1⟩
  · exact absurd (And.intro (by linarith : (1:ℚ)/8 ≤ (k:ℚ) * (1/8) + 1/1000)
      (by norm_num : (1:ℚ)/8 ≤ 1/8)) h6

theorem tiles_coversFrom {t u : ℚ} {l : List CleanNote} (h : tiles t l u) :
    coversFrom t l := by
  induction l generalizing t with
  | nil => trivial
  | cons e es ih => exact ⟨h.1, ih h.2⟩

theorem tiles_append {t u : ℚ} {l l' : List CleanNote} (h : tiles t l u)
    (h' : coversFrom u l') : coversFrom t (l ++ l') := by
  induction l generalizing t with
  | nil => simpa [tiles] using h ▸ h'
  | cons e es ih => exact ⟨h.1, ih h.2⟩

theorem tiles_sum {t u : ℚ} {l : List CleanNote} (h : tiles t l u) :
    (l.map CleanNote.duration).sum = u - t := by
  induction l generalizing t with
  | nil =>
      have : t = u := h
      simp [this]
  | cons e es ih =>
      have := ih h.2
      simp only [List.map_cons, List.sum_cons, this]
      ring

theorem tiles_getLast {t u : ℚ} {l : List CleanNote} (h : tiles t l u)
    (hne : l ≠ []) :
    (l.getLast hne).offset + (l.getLast hne).duration = u := by
  induction l generalizing t with
  | nil => exact absurd rfl hne
  | cons e es ih =>
      cases es with
      | nil =>
          simp only [List.getLast_singleton]
          have h2 : t + e.duration = u := h.2
          rw [h.1]
          exact h2
      | cons x xs =>
          rw [List.getLast_cons (by simp : x :: xs ≠ [])]
          exact ih h.2 (by simp)

theorem tiles_ne_nil {t u : ℚ} {l : List CleanNote} (h : tiles t l u)
    (hne : t ≠ u) : l ≠ [] := by
  intro he
  subst he
  exact hne h

theorem restLoop_mem {g : ℚ} (hg : g ∈ tierGrids) :
    ∀ (fuel : ℕ) (cur rem : ℚ), ∀ r ∈ restLoop g fuel cur rem,
      r.isRest = true ∧ r.midiPitch = none ∧
        r.duration ∈ simpleDurations ∧ g ≤ r.duration := by
  intro fuel
  induction fuel with
  | zero => intro cur rem r hr; simp [restLoop] at hr
  | succ fuel ih =>
      intro cur rem r hr
      rw [restLoop] at hr
      split_ifs at hr with hc
      · rcases List.mem_cons.mp hr with hr1 | hr2
        · subst hr1
          exact ⟨rfl, rfl, (pickRestDuration_props hg rem).1,
            (pickRestDuration_props hg rem).2⟩
        · exact ih _ _ r hr2
      · simp at hr

theorem restLoop_tile_lin {g : ℚ} (hg : g ∈ tierGrids) :
    ∀ (fuel k : ℕ) (cur : ℚ), dec3 cur → k ≤ fuel →
      tiles cur (restLoop g fuel cur ((k : ℚ) * g)) (cur + (k : ℚ) * g) := by
  have hgpos := tierGrid_pos hg
  have hgsmall := tierGrid_small hg
  intro fuel
  induction fuel with
  | zero =>
      intro k cur hcur hk
      have hk0 : k = 0 := Nat.le_zero.mp hk
      subst hk0
      show cur = cur + (0 : ℕ) * g
      push_cast
      ring
  | succ fuel ih =>
      intro k cur hcur hk
      rcases Nat.eq_zero_or_pos k with hk0 | hk1
      · subst hk0
        rw [restLoop, if_neg (by push_cast; linarith)]
        show cur = cur + (0 : ℕ) * g
        push_cast
        ring
      · obtain ⟨j, hj1, hjk, hpick, _⟩ := pickRestDuration_spec hg hk1
        have hkq : (1 : ℚ) ≤ (k : ℚ) := by exact_mod_cast hk1
        have hcond : g - 1/1000 ≤ (k : ℚ) * g := by nlinarith
        rw [restLoop, if_pos hcond]
        dsimp only
        rw [hpick]
        have hrem : (k : ℚ) * g - (j : ℚ) * g = ((k - j : ℕ) : ℚ) * g := by
          push_cast [Nat.cast_sub hjk]
          ring
        have hcur' : dec3 (cur + (j : ℚ) * g) :=
          dec3_add hcur (dec3_nat_mul_grid hg j)
        rw [round3_eq_self hcur', hrem,
          round3_eq_self (dec3_nat_mul_grid hg (k - j))]
        refine ⟨rfl, ?_⟩
        have hih := ih (k - j) (cur + (j : ℚ) * g) hcur' (by omega)
        have heq : cur + (j : ℚ) * g + ((k - j : ℕ) : ℚ) * g =
            cur + (k : ℚ) * g := by
          push_cast [Nat.cast_sub hjk]
          ring
        rw [heq] at hih
        exact hih

theorem restLoop_tile {g : ℚ} (hg : g ∈ tierGrids) {q : ℕ}
    (hq : (q : ℚ) * g = 4) :
    ∀ (fuel k : ℕ) (cur : ℚ), dec3 cur → k / q + k % q ≤ fuel →
      tiles cur (restLoop g fuel cur ((k : ℚ) * g)) (cur + (k : ℚ) * g) := by
  have hgpos := tierGrid_pos hg
  have hgsmall := tierGrid_small hg
  have hq0 : 0 < q := by
    rcases Nat.eq_zero_or_pos q with h | h
    · subst h; norm_num at hq
    · exact h
  intro fuel
  induction fuel with
  | zero =>
      intro k cur hcur hk
      have hk0 : k = 0 := by
        obtain ⟨h1, h2⟩ := Nat.add_eq_zero.mp (Nat.le_zero.mp hk)
        have h3 := Nat.div_add_mod k q
        rw [h1, h2] at h3
        simpa using h3.symm
      subst hk0
      show cur = cur + (0 : ℕ) * g
      push_cast
      ring
  | succ fuel ih =>
      intro k cur hcur hk
      rcases Nat.lt_or_ge k q with hlt | hge
      · exact restLoop_tile_lin hg (fuel + 1) k cur hcur
          (by rw [Nat.div_eq_of_lt hlt, Nat.mod_eq_of_lt hlt] at hk; omega)
      · have hk1 : 1 ≤ k := le_trans hq0 hge
        obtain ⟨j, hj1, hjk, hpick, hpick4⟩ := pickRestDuration_spec hg hk1
        have hkq : (1 : ℚ) ≤ (k : ℚ) := by exact_mod_cast hk1
        have hcond : g - 1/1000 ≤ (k : ℚ) * g := by nlinarith
        have h4k : (4 : ℚ) ≤ (k : ℚ) * g := by
          rw [← hq]
          have : (q : ℚ) ≤ (k : ℚ) := by exact_mod_cast hge
          nlinarith
        have hpick' := hpick4 h4k
        rw [restLoop, if_pos hcond]
        dsimp only
        rw [hpick']
        have hrem : (k : ℚ) * g - 4 = ((k - q : ℕ) : ℚ) * g := by
          push_cast [Nat.cast_sub hge]
          rw [sub_mul, hq]
        have hcur' : dec3 (cur + 4) := dec3_add hcur ⟨4000, by norm_num⟩
        rw [round3_eq_self hcur', hrem,
          round3_eq_self (dec3_nat_mul_grid hg (k - q))]
        refine ⟨rfl, ?_⟩
        have hdiv : k / q = (k - q) / q + 1 := Nat.div_eq_sub_div hq0 hge
        have hmod : k % q = (k - q) % q := Nat.mod_eq_sub_mod hge
        have hih := ih (k - q) (cur + 4) hcur' (by omega)
        have heq : cur + 4 + ((k - q : ℕ) : ℚ) * g = cur + (k : ℚ) * g := by
          rw [← hrem]
          ring
        rw [heq] at hih
        exact hih

theorem createRests_tile {g : ℚ} (hg : g ∈ tierGrids) {k : ℕ} (s : ℚ)
    (hbound : (k : ℚ) * g ≤ 76) :
    tiles (round3 s) (createRestsForDuration s ((k : ℚ) * g) g)
      (round3 s + (k : ℚ) * g) := by
  rw [createRestsForDuration, round3_eq_self (dec3_nat_mul_grid hg k)]
  rcases tierGrids_cases hg with hg1 | hg1 | hg1
  · refine restLoop_tile hg (q := 8) (by rw [hg1]; norm_num) 50 k (round3 s)
      (dec3_round3 s) ?_
    have hk : (k : ℚ) ≤ 152 := by rw [hg1] at hbound; linarith
    have hk' : k ≤ 152 := by exact_mod_cast hk
    omega
  · refine restLoop_tile hg (q := 16) (by rw [hg1]; norm_num) 50 k (round3 s)
      (dec3_round3 s) ?_
    have hk : (k : ℚ) ≤ 304 := by rw [hg1] at hbound; linarith
    have hk' : k ≤ 304 := by exact_mod_cast hk
    omega
  · refine restLoop_tile hg (q := 32) (by rw [hg1]; norm_num) 50 k (round3 s)
      (dec3_round3 s) ?_
    have hk : (k : ℚ) ≤ 608 := by rw [hg1] at hbound; linarith
    have hk' : k ≤ 608 := by exact_mod_cast hk
    omega

theorem restLoop_isRest {g : ℚ} :
    ∀ (fuel : ℕ) (cur rem : ℚ), ∀ r ∈ restLoop g fuel cur rem,
      r.isRest = true := by
  intro fuel
  induction fuel with
  | zero => intro cur rem r hr; simp [restLoop] at hr
  | succ fuel ih =>
      intro cur rem r hr
      rw [restLoop] at hr
      split_ifs at hr with hc
      · rcases List.mem_cons.mp hr with hr1 | hr2
        · subst hr1; rfl
        · exact ih _ _ r hr2
      · simp at hr

theorem createRests_isRest (s tot g : ℚ) :
    ∀ r ∈ createRestsForDuration s tot g, r.isRest = true := by
  intro r hr
  rw [createRestsForDuration] at hr
  exact restLoop_isRest _ _ _ r hr

/-- The image of an input note in the gap filler's output: offset rounded to
3 decimals, everything else unchanged, emitted as a non-rest. -/
def fillImage (n : CleanNote) : CleanNote :=
  { offset := round3 n.offset, duration := n.duration,
    midiPitch := n.midiPitch, isRest := false }

theorem fillLoop_sublist {g : ℚ} :
    ∀ (notes : List CleanNote) (t : ℚ),
      List.Sublist ((fillLoop g t notes).filter (fun e => !e.isRest))
        (notes.map fillImage) := by
  intro notes
  induction notes with
  | nil => intro t; simp [fillLoop]
  | cons n ns ih =>
      intro t
      rw [fillLoop]
      dsimp only
      have hrest : ∀ rs0 : List CleanNote,
          (∀ r ∈ rs0, r.isRest = true) →
          rs0.filter (fun e => !e.isRest) = [] := by
        intro rs0 h
        apply List.filter_eq_nil_iff.mpr
        intro a ha
        simp [h a ha]
      split_ifs with h1 h2 h3
      · rw [List.filter_append,
          hrest _ (createRests_isRest _ _ _),
          List.nil_append, List.filter_cons_of_pos (by rfl), List.map_cons]
        exact List.Sublist.cons₂ _ (ih _)
      · rw [List.filter_append,
          hrest _ (createRests_isRest _ _ _),
          List.nil_append, List.map_cons]
        exact List.Sublist.cons _ (ih _)
      · rw [List.filter_cons_of_pos (by rfl), List.map_cons]
        exact List.Sublist.cons₂ _ (ih _)
      · rw [List.map_cons]
        exact List.Sublist.cons _ (ih _)

theorem fillLoop_mem {g : ℚ} (hg : g ∈ tierGrids) :
    ∀ (notes : List CleanNote) (t : ℚ), ∀ e ∈ fillLoop g t notes,
      (e.isRest = true ∧ e.midiPitch = none ∧
        e.duration ∈ simpleDurations ∧ g ≤ e.duration) ∨
      (∃ n ∈ notes, e.isRest = false ∧ e.offset = round3 n.offset ∧
        e.duration = n.duration ∧ e.midiPitch = n.midiPitch) := by
  intro notes
  induction notes with
  | nil => intro t e he; simp [fillLoop] at he
  | cons n ns ih =>
      intro t e he
      rw [fillLoop] at he
      dsimp only at he
      split_ifs at he with h1 h2 h3
      · rcases List.mem_append.mp he with hr | hn
        · exact Or.inl (restLoop_mem hg _ _ _ e
            (by rwa [createRestsForDuration] at hr))
        · rcases List.mem_cons.mp hn with he1 | he2
          · subst he1
            exact Or.inr ⟨n, List.mem_cons_self n ns, rfl, rfl, rfl, rfl⟩
          · rcases ih _ e he2 with h | ⟨m, hm, hrest⟩
            · exact Or.inl h
            · exact Or.inr ⟨m, List.mem_cons_of_mem n hm, hrest⟩
      · rcases List.mem_append.mp he with hr | hn
        · exact Or.inl (restLoop_mem hg _ _ _ e
            (by rwa [createRestsForDuration] at hr))
        · rcases ih _ e hn with h | ⟨m, hm, hrest⟩
          · exact Or.inl h
          · exact Or.inr ⟨m, List.mem_cons_of_mem n hm, hrest⟩
      · rcases List.mem_cons.mp he with he1 | he2
        · subst he1
          exact Or.inr ⟨n, List.mem_cons_self n ns, rfl, rfl, rfl, rfl⟩
        · rcases ih _ e he2 with h | ⟨m, hm, hrest⟩
          · exact Or.inl h
          · exact Or.inr ⟨m, List.mem_cons_of_mem n hm, hrest⟩
      · rcases ih _ e he with h | ⟨m, hm, hrest⟩
        · exact Or.inl h
        · exact Or.inr ⟨m, List.mem_cons_of_mem n hm, hrest⟩

theorem fillLoop_drop {g t : ℚ} {n : CleanNote} (ns : List CleanNote)
    (hg : 0 ≤ g) (h : round3 n.offset < round3 t - 1/1000) :
    fillLoop g t (n :: ns) = fillLoop g (round3 t) ns := by
  rw [fillLoop]
  dsimp only
  rw [if_neg (by intro hc; linarith), if_neg (by intro hc; linarith)]

theorem coversFrom_chain' {t : ℚ} {l : List CleanNote} (h : coversFrom t l) :
    List.Chain' (fun x y => x.offset + x.duration = y.offset) l := by
  induction l generalizing t with
  | nil => simp
  | cons e es ih =>
      cases es with
      | nil => simp
      | cons x xs =>
          rw [List.chain'_cons]
          have hx : x.offset = t + e.duration := h.2.1
          exact ⟨by rw [hx, h.1], ih h.2⟩

theorem fillLoop_chain {g : ℚ} (hg : g ∈ tierGrids) :
    ∀ (notes : List CleanNote) (t : ℚ) (a : ℕ), t = (a : ℚ) * g →
      (∀ n ∈ notes, (∃ b : ℕ, n.offset = (b : ℚ) * g) ∧ n.offset ≤ 76 ∧
        (∃ c : ℕ, 1 ≤ c ∧ n.duration = (c : ℚ) * g)) →
      coversFrom t (fillLoop g t notes) := by
  have hgpos := tierGrid_pos hg
  have hgsmall := tierGrid_small hg
  intro notes
  induction notes with
  | nil => intro t a ht hn; exact trivial
  | cons n ns ih =>
      intro t a ht hn
      obtain ⟨⟨b, hb⟩, hb76, c, hc1, hc⟩ := hn n (List.mem_cons_self n ns)
      subst ht
      have hnt : round3 ((a : ℚ) * g) = (a : ℚ) * g :=
        round3_eq_self (dec3_nat_mul_grid hg a)
      have hno : round3 n.offset = (b : ℚ) * g := by
        rw [hb]
        exact round3_eq_self (dec3_nat_mul_grid hg b)
      have hbg76 : (b : ℚ) * g ≤ 76 := hb ▸ hb76
      have hag0 : 0 ≤ (a : ℚ) * g :=
        mul_nonneg (Nat.cast_nonneg a) (le_of_lt hgpos)
      have hnsrec : ∀ m ∈ ns, (∃ b0 : ℕ, m.offset = (b0 : ℚ) * g) ∧
          m.offset ≤ 76 ∧ (∃ c0 : ℕ, 1 ≤ c0 ∧ m.duration = (c0 : ℚ) * g) :=
        fun m hm => hn m (List.mem_cons_of_mem n hm)
      have hbg : round3 ((b : ℚ) * g) = (b : ℚ) * g :=
        round3_eq_self (dec3_nat_mul_grid hg b)
      have hbcg : (b : ℚ) * g + (c : ℚ) * g = ((b + c : ℕ) : ℚ) * g := by
        push_cast
        ring
      rw [fillLoop]
      dsimp only
      rw [hnt, hno]
      by_cases hab : a + 1 ≤ b
      · have habq : (a : ℚ) + 1 ≤ (b : ℚ) := by exact_mod_cast hab
        have hstep := mul_le_mul_of_nonneg_right habq (le_of_lt hgpos)
        have hcond : g - 1/1000 ≤ (b : ℚ) * g - (a : ℚ) * g := by
          have : ((a : ℚ) + 1) * g = (a : ℚ) * g + g := by ring
          rw [this] at hstep
          linarith
        rw [if_pos hcond]
        have haleb : a ≤ b := by omega
        have hgap : (b : ℚ) * g - (a : ℚ) * g = ((b - a : ℕ) : ℚ) * g := by
          push_cast [Nat.cast_sub haleb]
          ring
        rw [hgap]
        have hbound : ((b - a : ℕ) : ℚ) * g ≤ 76 := by
          rw [← hgap]
          linarith
        have htile := createRests_tile hg ((a : ℚ) * g) hbound
        rw [hnt] at htile
        have hend : (a : ℚ) * g + ((b - a : ℕ) : ℚ) * g = (b : ℚ) * g := by
          push_cast [Nat.cast_sub haleb]
          ring
        rw [hend] at htile
        have hk1 : (1 : ℚ) ≤ ((b - a : ℕ) : ℚ) := by
          have : 1 ≤ b - a := by omega
          exact_mod_cast this
        have hkg := mul_le_mul_of_nonneg_right hk1 (le_of_lt hgpos)
        rw [one_mul] at hkg
        have hne : createRestsForDuration ((a : ℚ) * g)
            (((b - a : ℕ) : ℚ) * g) g ≠ [] := by
          refine tiles_ne_nil htile ?_
          intro hEq
          have := hend
          rw [← hEq] at this
          linarith
        have hlast := tiles_getLast htile hne
        rw [List.getLast?_eq_getLast _ hne]
        dsimp only
        rw [hlast, hbg, if_pos (by linarith : (b : ℚ) * g - 1/1000 ≤
          (b : ℚ) * g)]
        refine tiles_append htile ⟨rfl, ?_⟩
        rw [hc, hbcg, round3_eq_self (dec3_nat_mul_grid hg (b + c))]
        exact ih _ (b + c) rfl hnsrec
      · have hba : b ≤ a := by omega
        have hbaq : (b : ℚ) ≤ (a : ℚ) := by exact_mod_cast hba
        have hmul := mul_le_mul_of_nonneg_right hbaq (le_of_lt hgpos)
        rw [if_neg (by intro hcc; linarith)]
        by_cases hEq : b = a
        · subst hEq
          rw [if_pos (by linarith : (b : ℚ) * g - 1/1000 ≤ (b : ℚ) * g)]
          refine ⟨rfl, ?_⟩
          rw [hc, hbcg, round3_eq_self (dec3_nat_mul_grid hg (b + c))]
          exact ih _ (b + c) rfl hnsrec
        · have hblt : b + 1 ≤ a := by omega
          have hbltq : (b : ℚ) + 1 ≤ (a : ℚ) := by exact_mod_cast hblt
          have hmul' := mul_le_mul_of_nonneg_right hbltq (le_of_lt hgpos)
          have : ((b : ℚ) + 1) * g = (b : ℚ) * g + g := by ring
          rw [this] at hmul'
          rw [if_neg (by intro hcc; linarith)]
          exact ih _ a rfl hnsrec

theorem removeOverlaps_cons (n : CleanNote) (l : List CleanNote) (g : ℚ) :
    ∃ h rest, removeOverlaps (n :: l) g = h :: rest ∧
      h.offset = n.offset ∧ h.midiPitch = n.midiPitch := by
  cases l with
  | nil => exact ⟨n, [], rfl, rfl, rfl⟩
  | cons m ms =>
      rw [removeOverlaps]
      dsimp only
      split_ifs with h1 h2
      · exact ⟨_, _, rfl, rfl, rfl⟩
      · exact absurd (snapToStandardDuration_ge _ _) h2
      · exact ⟨n, _, rfl, rfl, rfl⟩

theorem removeOverlaps_length :
    ∀ (l : List CleanNote) (g : ℚ),
      (removeOverlaps l g).length = l.length := by
  intro l
  induction l with
  | nil => intro g; rfl
  | cons n l' ih =>
      intro g
      cases l' with
      | nil => rfl
      | cons m ms =>
          rw [removeOverlaps]
          dsimp only
          split_ifs with h1 h2 <;>
            simp [ih g, List.length_append]
          exact absurd (snapToStandardDuration_ge _ _) h2

theorem removeOverlaps_map_offset :
    ∀ (l : List CleanNote) (g : ℚ),
      (removeOverlaps l g).map CleanNote.offset =
        l.map CleanNote.offset := by
  intro l
  induction l with
  | nil => intro g; rfl
  | cons n l' ih =>
      intro g
      cases l' with
      | nil => rfl
      | cons m ms =>
          rw [removeOverlaps]
          dsimp only
          split_ifs with h1 h2
          · simp [ih g]
          · exact absurd (snapToStandardDuration_ge _ _) h2
          · simp [ih g]

theorem removeOverlaps_mem :
    ∀ (l : List CleanNote) (g : ℚ), ∀ x ∈ removeOverlaps l g,
      ∃ n ∈ l, x.offset = n.offset ∧ x.midiPitch = n.midiPitch ∧
        (x = n ∨ (x.isRest = false ∧
          ∃ d0, x.duration = snapToStandardDuration d0 g)) := by
  intro l
  induction l with
  | nil => intro g x hx; simp [removeOverlaps] at hx
  | cons n l' ih =>
      intro g x hx
      cases l' with
      | nil =>
          rw [removeOverlaps] at hx
          rcases List.mem_singleton.mp hx with rfl
          exact ⟨x, List.mem_cons_self x [], rfl, rfl, Or.inl rfl⟩
      | cons m ms =>
          rw [removeOverlaps] at hx
          dsimp only at hx
          split_ifs at hx with h1 h2
          · rcases List.mem_append.mp hx with hx1 | hx2
            · rcases List.mem_singleton.mp hx1 with rfl
              exact ⟨n, List.mem_cons_self n (m :: ms), rfl, rfl,
                Or.inr ⟨rfl, ⟨m.offset - n.offset, rfl⟩⟩⟩
            · obtain ⟨n0, hn0, hrest⟩ := ih g x hx2
              exact ⟨n0, List.mem_cons_of_mem n hn0, hrest⟩
          · exact absurd (snapToStandardDuration_ge _ _) h2
          · rcases List.mem_append.mp hx with hx1 | hx2
            · rcases List.mem_singleton.mp hx1 with rfl
              exact ⟨x, List.mem_cons_self x (m :: ms), rfl, rfl, Or.inl rfl⟩
            · obtain ⟨n0, hn0, hrest⟩ := ih g x hx2
              exact ⟨n0, List.mem_cons_of_mem n hn0, hrest⟩

theorem removeOverlaps_idem :
    ∀ (l : List CleanNote) (g : ℚ),
      removeOverlaps (removeOverlaps l g) g = removeOverlaps l g := by
  intro l
  induction l with
  | nil => intro g; rfl
  | cons n l' ih =>
      intro g
      cases l' with
      | nil => rfl
      | cons m ms =>
          obtain ⟨h, rest, hOUT, hoff, hpitch⟩ := removeOverlaps_cons m ms g
          have hidem : removeOverlaps (h :: rest) g = h :: rest := by
            rw [← hOUT]
            exact ih g
          rw [removeOverlaps]
          dsimp only
          split_ifs with h1 h2
          · rw [List.singleton_append, hOUT, removeOverlaps]
            dsimp only
            rw [hidem, hoff]
            split_ifs with h3
            · rfl
            · rfl
          · exact absurd (snapToStandardDuration_ge _ _) h2
          · rw [List.singleton_append, hOUT, removeOverlaps]
            dsimp only
            rw [hidem, hoff]
            rw [if_neg h1]
            rfl

/-- The overlap-resolution step as the spec describes it: each event except
the last is truncated-and-re-snapped when its span crosses the next event's
offset, and kept unchanged otherwise; no event is dropped. -/
def resolveStep (g : ℚ) (n next : CleanNote) : CleanNote :=
  if next.offset < n.offset + n.duration then
    { offset := n.offset,
      duration := snapToStandardDuration (next.offset - n.offset) g,
      midiPitch := n.midiPitch, isRest := false }
  else n

/-- The spec-level reading of the overlap resolver (refinement target for
the amended C2). -/
def removeOverlapsSpec : List CleanNote → ℚ → List CleanNote
  | [], _ => []
  | [n], _ => [n]
  | n :: m :: rest, g => resolveStep g n m :: removeOverlapsSpec (m :: rest) g

theorem removeOverlaps_eq_spec :
    ∀ (l : List CleanNote) (g : ℚ),
      removeOverlaps l g = removeOverlapsSpec l g := by
  intro l
  induction l with
  | nil => intro g; rfl
  | cons n l' ih =>
      intro g
      cases l' with
      | nil => rfl
      | cons m ms =>
          rw [removeOverlaps, removeOverlapsSpec]
          dsimp only
          rw [← ih g]
          unfold resolveStep
          split_ifs with h1 h2
          · rfl
          · exact absurd (snapToStandardDuration_ge _ _) h2
          · rfl

theorem dedupByOffset_sublist :
    ∀ (l : List CleanNote) (last : ℚ),
      List.Sublist (dedupByOffset last l) l := by
  intro l
  induction l with
  | nil => intro last; exact List.Sublist.refl []
  | cons n ns ih =>
      intro last
      rw [dedupByOffset]
      split_ifs with h
      · exact List.Sublist.cons₂ _ (ih _)
      · exact List.Sublist.cons _ (ih _)

theorem dedupByOffset_head :
    ∀ (l : List CleanNote) (last : ℚ) (x : CleanNote),
      (dedupByOffset last l).head? = some x →
        1/100 < |x.offset - last| := by
  intro l
  induction l with
  | nil => intro last x hx; simp [dedupByOffset] at hx
  | cons n ns ih =>
      intro last x hx
      rw [dedupByOffset] at hx
      split_ifs at hx with h
      · rw [List.head?_cons, Option.some_inj] at hx
        subst hx
        exact h
      · exact ih _ _ hx

theorem dedupByOffset_chain :
    ∀ (l : List CleanNote) (last : ℚ),
      List.Chain' (fun a b => 1/100 < |b.offset - a.offset|)
        (dedupByOffset last l) := by
  intro l
  induction l with
  | nil => intro last; simp [dedupByOffset]
  | cons n ns ih =>
      intro last
      rw [dedupByOffset]
      split_ifs with h
      · refine List.chain'_cons'.mpr ⟨?_, ih _⟩
        intro y hy
        exact dedupByOffset_head ns n.offset y hy
      · exact ih _

theorem dedupByOffset_id :
    ∀ (l : List CleanNote) (last : ℚ),
      List.Chain' (fun a b => 1/100 < |b.offset - a.offset|) l →
      (∀ x, l.head? = some x → 1/100 < |x.offset - last|) →
      dedupByOffset last l = l := by
  intro l
  induction l with
  | nil => intro last _ _; rfl
  | cons n ns ih =>
      intro last hchain hhead
      rw [dedupByOffset, if_pos (hhead n rfl)]
      congr 1
      refine ih _ (List.chain'_cons'.mp hchain).2 ?_
      intro x hx
      exact (List.chain'_cons'.mp hchain).1 x hx

theorem offsetGridOf_pos (g : ℚ) : 0 < offsetGridOf g := by
  unfold offsetGridOf
  split_ifs <;> norm_num

theorem offsetGridOf_le_one (g : ℚ) : offsetGridOf g ≤ 1 := by
  unfold offsetGridOf
  split_ifs <;> norm_num

theorem offsetGridOf_mul {g : ℚ} (hg : g ∈ tierGrids) :
    ∃ w : ℕ, 1 ≤ w ∧ offsetGridOf g = (w : ℚ) * g := by
  rcases tierGrids_cases hg with h | h | h <;> subst h <;> unfold offsetGridOf
  · exact ⟨2, by norm_num, by norm_num⟩
  · exact ⟨4, by norm_num, by norm_num⟩
  · exact ⟨4, by norm_num, by norm_num⟩

theorem tierGrid_le_four {g : ℚ} (hg : g ∈ tierGrids) : g ≤ 4 := by
  rcases tierGrids_cases hg with h | h | h <;> rw [h] <;> norm_num

theorem snapToGrid_fix {og : ℚ} (hog : og ≠ 0) (z : ℤ) :
    snapToGrid ((z : ℚ) * og) og = (z : ℚ) * og := by
  unfold snapToGrid
  rw [mul_div_assoc, div_self hog, mul_one, bankerRound_intCast]

theorem quantizeEvents_def (events : List (ℚ × ℚ × ℤ)) (g : ℚ) (tr : ℤ)
    (lo hi : ℤ) :
    quantizeEvents events g tr (lo, hi) =
      removeOverlaps (dedupByOffset (-1)
        ((events.map fun e =>
          ({ offset := snapToGrid e.1 (offsetGridOf g)
             duration := snapToStandardDuration e.2.1 g
             midiPitch := some (constrainPitch (e.2.2 + tr) (lo, hi))
             isRest := false } : CleanNote)).insertionSort leOff)) g := rfl

theorem quantizeEvents_mem {g : ℚ} (hg : g ∈ tierGrids)
    (events : List (ℚ × ℚ × ℤ)) (tr : ℤ) (lo hi : ℤ) :
    ∀ x ∈ quantizeEvents events g tr (lo, hi),
      x.isRest = false ∧
      (∃ p : ℤ, x.midiPitch = some p ∧ (lo ≤ hi → lo ≤ p ∧ p ≤ hi)) ∧
      x.duration ∈ simpleDurations ∧ g ≤ x.duration ∧
      (∃ z : ℤ, x.offset = (z : ℚ) * offsetGridOf g ∧
        ((∀ e ∈ events, 0 ≤ e.1) → 0 ≤ z) ∧
        ((∀ e ∈ events, e.1 ≤ 75) → x.offset ≤ 76)) := by
  intro x hx
  rw [quantizeEvents_def] at hx
  obtain ⟨n, hn, hoffeq, hpitcheq, hdur⟩ := removeOverlaps_mem _ _ x hx
  have hn2 : n ∈ (events.map fun e =>
      ({ offset := snapToGrid e.1 (offsetGridOf g)
         duration := snapToStandardDuration e.2.1 g
         midiPitch := some (constrainPitch (e.2.2 + tr) (lo, hi))
         isRest := false } : CleanNote)).insertionSort leOff :=
    (dedupByOffset_sublist _ _).subset hn
  rw [List.mem_insertionSort] at hn2
  obtain ⟨e, he, hne⟩ := List.mem_map.mp hn2
  have hog := offsetGridOf_pos g
  have hle4 := tierGrid_le_four hg
  refine ⟨?_, ⟨constrainPitch (e.2.2 + tr) (lo, hi), ?_, ?_⟩, ?_, ?_,
    bankerRound (e.1 / offsetGridOf g), ?_, ?_, ?_⟩
  · rcases hdur with rfl | ⟨hrest, _⟩
    · rw [← hne]
    · exact hrest
  · rw [hpitcheq, ← hne]
  · intro hlohi
    exact constrainPitch_mem hlohi
  · rcases hdur with rfl | ⟨_, d0, hd0⟩
    · rw [← hne]
      exact snapToStandardDuration_mem _ hle4
    · rw [hd0]
      exact snapToStandardDuration_mem _ hle4
  · rcases hdur with rfl | ⟨_, d0, hd0⟩
    · rw [← hne]
      exact snapToStandardDuration_ge _ _
    · rw [hd0]
      exact snapToStandardDuration_ge _ _
  · rw [hoffeq, ← hne]
    rfl
  · intro hpos
    exact bankerRound_nonneg (div_nonneg (hpos e he) (le_of_lt hog))
  · intro hbound
    rw [hoffeq, ← hne]
    show snapToGrid e.1 (offsetGridOf g) ≤ 76
    unfold snapToGrid
    have h1 := bankerRound_le (e.1 / offsetGridOf g)
    have h2 : (bankerRound (e.1 / offsetGridOf g) : ℚ) * offsetGridOf g ≤
        (e.1 / offsetGridOf g + 1/2) * offsetGridOf g :=
      mul_le_mul_of_nonneg_right h1 (le_of_lt hog)
    have h3 : (e.1 / offsetGridOf g + 1/2) * offsetGridOf g =
        e.1 + offsetGridOf g / 2 := by
      field_simp
      ring
    have h4 := offsetGridOf_le_one g
    have h5 := hbound e he
    linarith

theorem quantizeEvents_sorted {g : ℚ} (events : List (ℚ × ℚ × ℤ)) (tr : ℤ)
    (lo hi : ℤ) :
    List.Pairwise leOff (quantizeEvents events g tr (lo, hi)) := by
  rw [quantizeEvents_def]
  have hS : List.Sorted leOff ((events.map fun e =>
      ({ offset := snapToGrid e.1 (offsetGridOf g)
         duration := snapToStandardDuration e.2.1 g
         midiPitch := some (constrainPitch (e.2.2 + tr) (lo, hi))
         isRest := false } : CleanNote)).insertionSort leOff) :=
    List.sorted_insertionSort leOff _
  have hu : List.Pairwise leOff (dedupByOffset (-1)
      ((events.map fun e =>
        ({ offset := snapToGrid e.1 (offsetGridOf g)
           duration := snapToStandardDuration e.2.1 g
           midiPitch := some (constrainPitch (e.2.2 + tr) (lo, hi))
           isRest := false } : CleanNote)).insertionSort leOff)) :=
    List.Pairwise.sublist (dedupByOffset_sublist _ _) hS
  have h1 : List.Pairwise (fun a b : ℚ => a ≤ b)
      ((dedupByOffset (-1) _).map CleanNote.offset) :=
    List.pairwise_map.mpr hu
  have h2 : List.Pairwise (fun a b : ℚ => a ≤ b)
      ((removeOverlaps (dedupByOffset (-1)
        ((events.map fun e =>
          ({ offset := snapToGrid e.1 (offsetGridOf g)
             duration := snapToStandardDuration e.2.1 g
             midiPitch := some (constrainPitch (e.2.2 + tr) (lo, hi))
             isRest := false } : CleanNote)).insertionSort leOff)) g).map
        CleanNote.offset) := by
    rw [removeOverlaps_map_offset]
    exact h1
  have h3 : List.Pairwise
      (fun a b : CleanNote => CleanNote.offset a ≤ CleanNote.offset b)
      (removeOverlaps (dedupByOffset (-1)
        ((events.map fun e =>
          ({ offset := snapToGrid e.1 (offsetGridOf g)
             duration := snapToStandardDuration e.2.1 g
             midiPitch := some (constrainPitch (e.2.2 + tr) (lo, hi))
             isRest := false } : CleanNote)).insertionSort leOff)) g) :=
    List.pairwise_map.mp h2
  exact h3

theorem quantizeEvents_chain {g : ℚ} (events : List (ℚ × ℚ × ℤ)) (tr : ℤ)
    (lo hi : ℤ) :
    List.Chain' (fun a b => 1/100 < |b.offset - a.offset|)
      (quantizeEvents events g tr (lo, hi)) := by
  rw [quantizeEvents_def]
  have hu := dedupByOffset_chain ((events.map fun e =>
      ({ offset := snapToGrid e.1 (offsetGridOf g)
         duration := snapToStandardDuration e.2.1 g
         midiPitch := some (constrainPitch (e.2.2 + tr) (lo, hi))
         isRest := false } : CleanNote)).insertionSort leOff) (-1)
  have h1 : List.Chain' (fun a b : ℚ => 1/100 < |b - a|)
      ((dedupByOffset (-1) _).map CleanNote.offset) :=
    (List.chain'_map CleanNote.offset).mpr hu
  have h2 : List.Chain' (fun a b : ℚ => 1/100 < |b - a|)
      ((removeOverlaps (dedupByOffset (-1)
        ((events.map fun e =>
          ({ offset := snapToGrid e.1 (offsetGridOf g)
             duration := snapToStandardDuration e.2.1 g
             midiPitch := some (constrainPitch (e.2.2 + tr) (lo, hi))
             isRest := false } : CleanNote)).insertionSort leOff)) g).map
        CleanNote.offset) := by
    rw [removeOverlaps_map_offset]
    exact h1
  have h3 : List.Chain'
      (fun a b : CleanNote =>
        1/100 < |CleanNote.offset b - CleanNote.offset a|)
      (removeOverlaps (dedupByOffset (-1)
        ((events.map fun e =>
          ({ offset := snapToGrid e.1 (offsetGridOf g)
             duration := snapToStandardDuration e.2.1 g
             midiPitch := some (constrainPitch (e.2.2 + tr) (lo, hi))
             isRest := false } : CleanNote)).insertionSort leOff)) g) :=
    (List.chain'_map CleanNote.offset).mp h2
  exact h3

theorem quantizeEvents_headCond {g : ℚ} (events : List (ℚ × ℚ × ℤ)) (tr : ℤ)
    (lo hi : ℤ) :
    ∀ x, (quantizeEvents events g tr (lo, hi)).head? = some x →
      1/100 < |x.offset - (-1)| := by
  intro x hx
  rw [quantizeEvents_def] at hx
  rcases heq : dedupByOffset (-1) ((events.map fun e =>
      ({ offset := snapToGrid e.1 (offsetGridOf g)
         duration := snapToStandardDuration e.2.1 g
         midiPitch := some (constrainPitch (e.2.2 + tr) (lo, hi))
         isRest := false } : CleanNote)).insertionSort leOff) with _ | ⟨m, ms⟩
  · rw [heq] at hx
    simp [removeOverlaps] at hx
  · rw [heq] at hx
    obtain ⟨h, rest, hout, hoff, _⟩ := removeOverlaps_cons m ms g
    rw [hout, List.head?_cons, Option.some_inj] at hx
    subst hx
    rw [hoff]
    exact dedupByOffset_head _ _ m (by rw [heq]; rfl)

theorem map_eq_self_of {α : Type} {f : α → α} :
    ∀ {l : List α}, (∀ x ∈ l, f x = x) → l.map f = l := by
  intro l
  induction l with
  | nil => intro _; rfl
  | cons a l ih =>
      intro h
      rw [List.map_cons, h a (List.mem_cons_self a l),
        ih fun x hx => h x (List.mem_cons_of_mem a hx)]

theorem quantize_reread {g : ℚ} (hg : g ∈ tierGrids) {lo hi : ℤ}
    (hlohi : lo ≤ hi) (events : List (ℚ × ℚ × ℤ)) (tr : ℤ) :
    ∀ x ∈ quantizeEvents events g tr (lo, hi),
      ({ offset := snapToGrid (toRaw x).1 (offsetGridOf g)
         duration := snapToStandardDuration (toRaw x).2.1 g
         midiPitch := some (constrainPitch ((toRaw x).2.2 + 0) (lo, hi))
         isRest := false } : CleanNote) = x := by
  intro x hx
  obtain ⟨hrest, ⟨p, hp, hrange⟩, hmem, hge, z, hzoff, _, _⟩ :=
    quantizeEvents_mem hg events tr lo hi x hx
  obtain ⟨hlo, hhi⟩ := hrange hlohi
  have hog : offsetGridOf g ≠ 0 := ne_of_gt (offsetGridOf_pos g)
  have h3 : (toRaw x).2.2 = p := by
    show x.midiPitch.getD 0 = p
    rw [hp]
    rfl
  have hoffsnap : snapToGrid (toRaw x).1 (offsetGridOf g) = x.offset := by
    show snapToGrid x.offset (offsetGridOf g) = x.offset
    rw [hzoff]
    exact snapToGrid_fix hog z
  have hdursnap : snapToStandardDuration (toRaw x).2.1 g = x.duration := by
    show snapToStandardDuration x.duration g = x.duration
    exact snapToStandardDuration_fix hmem hge
  have hpitchsnap : constrainPitch ((toRaw x).2.2 + 0) (lo, hi) = p := by
    rw [h3, add_zero]
    exact constrainPitch_id hlo hhi
  rw [hoffsnap, hdursnap, hpitchsnap]
  cases x with
  | mk o d mp ir =>
      dsimp only at hp hrest ⊢
      rw [hp, hrest]

theorem quantizeEvents_idem {g : ℚ} (hg : g ∈ tierGrids) {lo hi : ℤ}
    (hlohi : lo ≤ hi) (events : List (ℚ × ℚ × ℤ)) (tr : ℤ) :
    quantizeEvents ((quantizeEvents events g tr (lo, hi)).map toRaw) g 0
      (lo, hi) = quantizeEvents events g tr (lo, hi) := by
  rw [quantizeEvents_def]
  have hmapmap : ((quantizeEvents events g tr (lo, hi)).map toRaw).map
      (fun e =>
        ({ offset := snapToGrid e.1 (offsetGridOf g)
           duration := snapToStandardDuration e.2.1 g
           midiPitch := some (constrainPitch (e.2.2 + 0) (lo, hi))
           isRest := false } : CleanNote)) =
      quantizeEvents events g tr (lo, hi) := by
    rw [List.map_map]
    exact map_eq_self_of (quantize_reread hg hlohi events tr)
  rw [hmapmap,
    List.Sorted.insertionSort_eq (quantizeEvents_sorted events tr lo hi),
    dedupByOffset_id _ (-1) (quantizeEvents_chain events tr lo hi)
      (quantizeEvents_headCond events tr lo hi)]
  conv_lhs =>
    rw [quantizeEvents_def]
  conv_rhs =>
    rw [quantizeEvents_def]
  exact removeOverlaps_idem _ _

theorem quantize_grid_post {g : ℚ} (hg : g ∈ tierGrids)
    (events : List (ℚ × ℚ × ℤ)) (tr : ℤ) (lo hi : ℤ)
    (h0 : ∀ e ∈ events, 0 ≤ e.1) (h75 : ∀ e ∈ events, e.1 ≤ 75) :
    ∀ n ∈ quantizeEvents events g tr (lo, hi),
      (∃ b : ℕ, n.offset = (b : ℚ) * g) ∧ n.offset ≤ 76 ∧
        (∃ c : ℕ, 1 ≤ c ∧ n.duration = (c : ℚ) * g) := by
  intro n hn
  obtain ⟨-, -, hmem, hge, z, hzoff, hznn, hb76⟩ :=
    quantizeEvents_mem hg events tr lo hi n hn
  obtain ⟨w, hw1, hwog⟩ := offsetGridOf_mul hg
  have hz0 : 0 ≤ z := hznn h0
  refine ⟨⟨z.toNat * w, ?_⟩, hb76 h75, simple_nat_mul hg hmem hge⟩
  rw [hzoff, hwog]
  have hzq : ((z.toNat : ℕ) : ℚ) = (z : ℚ) := by
    rw [← Int.cast_natCast, Int.toNat_of_nonneg hz0]
  push_cast
  rw [hzq]
  ring

theorem pipeline_cover {g : ℚ} (hg : g ∈ tierGrids)
    (events : List (ℚ × ℚ × ℤ)) (tr : ℤ) (lo hi : ℤ)
    (h0 : ∀ e ∈ events, 0 ≤ e.1) (h75 : ∀ e ∈ events, e.1 ≤ 75) :
    coversFrom 0
      (fillGapsWithRests (quantizeEvents events g tr (lo, hi)) g) := by
  have hpost := quantize_grid_post hg events tr lo hi h0 h75
  unfold fillGapsWithRests
  rcases heq : quantizeEvents events g tr (lo, hi) with _ | ⟨x, xs⟩
  · exact trivial
  · show coversFrom 0 (fillLoop g 0 (x :: xs))
    refine fillLoop_chain hg (x :: xs) 0 0 (by push_cast; ring) ?_
    intro n hn
    exact hpost n (heq ▸ hn)

theorem pipeline_mem {g : ℚ} (hg : g ∈ tierGrids)
    (events : List (ℚ × ℚ × ℤ)) (tr : ℤ) (lo hi : ℤ) :
    ∀ e ∈ fillGapsWithRests (quantizeEvents events g tr (lo, hi)) g,
      (e.isRest = true ∧ e.midiPitch = none ∧
        e.duration ∈ simpleDurations ∧ g ≤ e.duration) ∨
      (∃ n ∈ quantizeEvents events g tr (lo, hi), e.isRest = false ∧
        e.offset = round3 n.offset ∧ e.duration = n.duration ∧
        e.midiPitch = n.midiPitch) := by
  intro e he
  unfold fillGapsWithRests at he
  rcases heq : quantizeEvents events g tr (lo, hi) with _ | ⟨x, xs⟩
  · rw [heq] at he
    simp at he
  · rw [heq] at he
    have he2 : e ∈ fillLoop g 0 (x :: xs) := he
    rcases fillLoop_mem hg (x :: xs) 0 e he2 with h | ⟨n, hn, hrest⟩
    · exact Or.inl h
    · exact Or.inr ⟨n, heq ▸ hn, hrest⟩

theorem restLoop_length_le {g : ℚ} :
    ∀ (fuel : ℕ) (cur rem : ℚ), (restLoop g fuel cur rem).length ≤ fuel := by
  intro fuel
  induction fuel with
  | zero => intro cur rem; simp [restLoop]
  | succ fuel ih =>
      intro cur rem
      rw [restLoop]
      split_ifs with hc
      · simpa using ih _ _
      · simp

/-- C2 counterexample: on the offset-sorted input
`[Note(0, dur 4, pitch 60), Note(3, dur 1, pitch 64)]` with grid `1/2`,
`_remove_overlaps` truncates the first note to `3` quarter notes but then
re-snaps `3` to the standard value `4`, so the returned list still has the
first event's span (`0 + 4`) crossing the second event's offset (`3`) —
refuting the claimed postcondition that no span crosses the next event's
start. -/
theorem C2_counterexample :
    removeOverlaps
        [⟨0, 4, some 60, false⟩, ⟨3, 1, some 64, false⟩] (1/2) =
      [⟨0, 4, some 60, false⟩, ⟨3, 1, some 64, false⟩] ∧
    ((removeOverlaps [⟨0, 4, some 60, false⟩, ⟨3, 1, some 64, false⟩]
        (1/2)).getD 1 default).offset <
      ((removeOverlaps [⟨0, 4, some 60, false⟩, ⟨3, 1, some 64, false⟩]
        (1/2)).getD 0 default).offset +
      ((removeOverlaps [⟨0, 4, some 60, false⟩, ⟨3, 1, some 64, false⟩]
        (1/2)).getD 0 default).duration := by
  with_unfolding_all decide

/-- C2 (amended): `_remove_overlaps` rewrites each event except the last by
the `resolveStep` rule — an event whose span crosses the next event's offset
gets duration `snapToStandardDuration (next.offset - offset) grid` (which
may still exceed the gap, so a span can still cross the next start), and is
kept unchanged otherwise; the last event is always kept with its duration
unchanged; no event is ever dropped (the re-snapped duration is always at
least the grid unit, so the list length is preserved). -/
theorem C2_overlap_resolver :
    ∀ (l : List CleanNote) (g : ℚ),
      removeOverlaps l g = removeOverlapsSpec l g ∧
      (removeOverlaps l g).length = l.length ∧
      ∀ d : ℚ, g ≤ snapToStandardDuration d g :=
  fun l g => ⟨removeOverlaps_eq_spec l g, removeOverlaps_length l g,
    fun d => snapToStandardDuration_ge d g⟩

/-- C6 counterexample: with the advanced grid `1/8` (finer than a sixteenth
note), the quantizer snaps offsets to the *eighth-note* grid `0.5`, not to
the quarter-note grid the claim states: raw offset `0.5` survives as `0.5`,
whereas snapping to the claimed `1.0` grid would give `0` (banker's
rounding of `0.5`). -/
theorem C6_counterexample :
    (quantizeEvents [((1:ℚ)/2, 1, 60)] (1/8) 0 (54, 84)).map
      CleanNote.offset = [1/2] ∧
    snapToGrid (1/2) 1 ≠ (1/2 : ℚ) := by
  with_unfolding_all decide

/-- C6 (amended): every offset produced by `_quantize_events` is some raw
event's offset snapped to the nearest multiple of the offset grid, which is
`1.0` when the note grid is at least a sixteenth note (`grid ≥ 0.25`) and
`0.5` when the note grid is finer — the opposite assignment to the one the
claim states; in particular every output offset is an integer multiple of
that granularity. -/
theorem C6_offset_grid :
    ∀ (events : List (ℚ × ℚ × ℤ)) (g : ℚ) (tr : ℤ) (lo hi : ℤ),
      ∀ n ∈ quantizeEvents events g tr (lo, hi),
        ∃ e ∈ events,
          n.offset = snapToGrid e.1 (if 1/4 ≤ g then 1 else 1/2) ∧
          ∃ z : ℤ, n.offset = (z : ℚ) * (if 1/4 ≤ g then 1 else 1/2) := by
  intro events g tr lo hi n hn
  rw [quantizeEvents_def] at hn
  obtain ⟨m, hm, hoffeq, -, -⟩ := removeOverlaps_mem _ _ n hn
  have hm2 := (dedupByOffset_sublist _ _).subset hm
  rw [List.mem_insertionSort] at hm2
  obtain ⟨e, he, hme⟩ := List.mem_map.mp hm2
  refine ⟨e, he, ?_, bankerRound (e.1 / offsetGridOf g), ?_⟩ <;>
    rw [hoffeq, ← hme] <;> rfl

/-- C6 witness: the amended statement applied to the single concrete event
of the counterexample. -/
theorem C6_witness :
    ∃ e ∈ [((1:ℚ)/2, (1:ℚ), (60:ℤ))],
      (⟨1/2, 1, some 60, false⟩ : CleanNote).offset =
        snapToGrid e.1 (if 1/4 ≤ (1:ℚ)/8 then 1 else 1/2) ∧
      ∃ z : ℤ, (⟨1/2, 1, some 60, false⟩ : CleanNote).offset =
        (z : ℚ) * (if 1/4 ≤ (1:ℚ)/8 then 1 else 1/2) :=
  C6_offset_grid [((1:ℚ)/2, 1, 60)] (1/8) 0 54 84 ⟨1/2, 1, some 60, false⟩
    (by with_unfolding_all decide)

/-- C7 counterexample: on the gap `201` with grid `1/2` the rest loop runs
into its 50-iteration cap (fifty whole rests totalling `200`) while the
remaining gap `201 - 200 = 1` still satisfies the loop guard
`remaining ≥ grid - 0.001`; the function simply returns the partial list —
no error of any kind is raised, refuting the claim that this aborts the
tier with a fatal internal error. -/
theorem C7_counterexample :
    (createRestsForDuration 0 201 (1/2)).length = 50 ∧
    ((createRestsForDuration 0 201 (1/2)).map CleanNote.duration).sum =
      200 ∧
    (1/2 : ℚ) - 1/1000 ≤ 201 - 200 := by
  with_unfolding_all decide

/-- C7 (amended): the iteration cap is silent — `_create_rests_for_duration`
always returns an ordinary list of at most 50 rests, leaving any remaining
gap unfilled; nothing in the pipeline raises or aborts a tier. -/
theorem C7_cap_silent :
    ∀ (s tot g : ℚ), (createRestsForDuration s tot g).length ≤ 50 := by
  intro s tot g
  rw [createRestsForDuration]
  exact restLoop_length_le 50 _ _

theorem floorLog2Aux_spec :
    ∀ (fuel n : ℕ), 1 ≤ n → n < 2 ^ fuel →
      2 ^ floorLog2Aux fuel n ≤ n ∧ n < 2 ^ (floorLog2Aux fuel n + 1) := by
  intro fuel
  induction fuel with
  | zero =>
      intro n h1 h2
      norm_num at h2
      exact absurd h1 (by omega)
  | succ f ih =>
      intro n h1 h2
      rw [floorLog2Aux]
      split_ifs with hn
      · have hn1 : n = 1 := by omega
        subst hn1
        norm_num
      · have h1' : 1 ≤ n / 2 := by omega
        have h2' : n / 2 < 2 ^ f := by
          rw [pow_succ] at h2
          omega
        obtain ⟨ha, hb⟩ := ih (n / 2) h1' h2'
        constructor
        · rw [pow_succ]
          omega
        · rw [pow_succ]
          omega

theorem doubleRound_nonneg (q : ℚ) : 0 ≤ doubleRound q := by
  unfold doubleRound
  dsimp only
  split_ifs with h h2
  · exact le_refl 0
  · have hq : 0 < q := not_le.mp h
    refine div_nonneg ?_ (by positivity)
    exact_mod_cast bankerRound_nonneg (by positivity)
  · have hq : 0 < q := not_le.mp h
    refine div_nonneg ?_ (by positivity)
    exact_mod_cast bankerRound_nonneg (by positivity)

theorem doubleRound_err {q : ℚ} (h1 : 1/2 ≤ q) (h2 : q < 2 ^ 53) :
    |doubleRound q - q| ≤ q / 2 ^ 53 := by
  have hq0 : 0 < q := by linarith
  unfold doubleRound
  dsimp only
  rw [if_neg (by linarith)]
  by_cases hq1 : q < 1
  · rw [if_pos hq1]
    have hb1 := bankerRound_le (q * 2 ^ 53)
    have hb2 := le_bankerRound (q * 2 ^ 53)
    have heq : (bankerRound (q * 2 ^ 53) : ℚ) / 2 ^ 53 - q =
        ((bankerRound (q * 2 ^ 53) : ℚ) - q * 2 ^ 53) / 2 ^ 53 := by
      field_simp <;> ring
    rw [heq, abs_div, abs_of_pos (by positivity : (0:ℚ) < 2 ^ 53)]
    refine (div_le_div_right (by positivity : (0:ℚ) < 2 ^ 53)).mpr ?_
    have habs : |(bankerRound (q * 2 ^ 53) : ℚ) - q * 2 ^ 53| ≤ 1/2 :=
      abs_le.mpr ⟨by linarith, by linarith⟩
    exact le_trans habs h1
  · rw [if_neg hq1]
    have hq1' : (1:ℚ) ≤ q := le_of_not_lt hq1
    have hfl1 : (1:ℤ) ≤ ⌊q⌋ := by
      rw [Int.le_floor]
      exact_mod_cast hq1'
    have hflq : ((⌊q⌋ : ℤ) : ℚ) ≤ q := Int.floor_le q
    have hfl53 : ⌊q⌋ < 2 ^ 53 := by
      have h53 : ((⌊q⌋ : ℤ) : ℚ) < 2 ^ 53 := lt_of_le_of_lt hflq h2
      exact_mod_cast h53
    have hn1 : 1 ≤ ⌊q⌋.toNat := by omega
    have hn64 : ⌊q⌋.toNat < 2 ^ 64 := by
      have hn53 : ⌊q⌋.toNat < 2 ^ 53 := by omega
      calc ⌊q⌋.toNat < 2 ^ 53 := hn53
        _ ≤ 2 ^ 64 := by norm_num
    obtain ⟨he1, -⟩ := floorLog2Aux_spec 64 ⌊q⌋.toNat hn1 hn64
    have he52 : floorLog2Aux 64 ⌊q⌋.toNat ≤ 52 := by
      by_contra hcon
      push_neg at hcon
      have hge : (2:ℕ) ^ 53 ≤ 2 ^ floorLog2Aux 64 ⌊q⌋.toNat :=
        Nat.pow_le_pow_right (by norm_num) hcon
      omega
    have hcast1 : (2:ℚ) ^ floorLog2Aux 64 ⌊q⌋.toNat ≤ q := by
      have hpn : ((2 ^ floorLog2Aux 64 ⌊q⌋.toNat : ℕ) : ℚ) ≤
          ((⌊q⌋.toNat : ℕ) : ℚ) := by exact_mod_cast he1
      have hnq : ((⌊q⌋.toNat : ℕ) : ℚ) ≤ q := by
        have hzq : ((⌊q⌋.toNat : ℤ) : ℚ) ≤ q := by
          rw [Int.toNat_of_nonneg (by omega : (0:ℤ) ≤ ⌊q⌋)]
          exact hflq
        exact_mod_cast hzq
      calc (2:ℚ) ^ floorLog2Aux 64 ⌊q⌋.toNat
          = ((2 ^ floorLog2Aux 64 ⌊q⌋.toNat : ℕ) : ℚ) := by push_cast; rfl
        _ ≤ ((⌊q⌋.toNat : ℕ) : ℚ) := hpn
        _ ≤ q := hnq
    have hb1 := bankerRound_le (q * 2 ^ (52 - floorLog2Aux 64 ⌊q⌋.toNat))
    have hb2 := le_bankerRound (q * 2 ^ (52 - floorLog2Aux 64 ⌊q⌋.toNat))
    have heq : (bankerRound (q * 2 ^ (52 - floorLog2Aux 64 ⌊q⌋.toNat)) : ℚ) /
          2 ^ (52 - floorLog2Aux 64 ⌊q⌋.toNat) - q =
        ((bankerRound (q * 2 ^ (52 - floorLog2Aux 64 ⌊q⌋.toNat)) : ℚ) -
          q * 2 ^ (52 - floorLog2Aux 64 ⌊q⌋.toNat)) /
          2 ^ (52 - floorLog2Aux 64 ⌊q⌋.toNat) := by
      field_simp <;> ring
    rw [heq, abs_div,
      abs_of_pos (by positivity : (0:ℚ) < 2 ^ (52 - floorLog2Aux 64 ⌊q⌋.toNat))]
    rw [div_le_div_iff (by positivity) (by positivity)]
    have habs : |(bankerRound (q * 2 ^ (52 - floorLog2Aux 64 ⌊q⌋.toNat)) : ℚ) -
        q * 2 ^ (52 - floorLog2Aux 64 ⌊q⌋.toNat)| ≤ 1/2 :=
      abs_le.mpr ⟨by linarith, by linarith⟩
    have hmul := mul_le_mul_of_nonneg_right habs
      (le_of_lt (by positivity : (0:ℚ) < 2 ^ 53))
    have hpow : (2:ℚ) ^ floorLog2Aux 64 ⌊q⌋.toNat *
        2 ^ (52 - floorLog2Aux 64 ⌊q⌋.toNat) = 2 ^ 52 := by
      rw [← pow_add]
      congr 1
      omega
    have h52 : (2:ℚ) ^ 52 ≤ q * 2 ^ (52 - floorLog2Aux 64 ⌊q⌋.toNat) := by
      rw [← hpow]
      exact mul_le_mul_of_nonneg_right hcast1 (by positivity)
    have h253 : (1:ℚ)/2 * 2 ^ 53 = 2 ^ 52 := by norm_num
    linarith

theorem pyInt_eq_floor {q : ℚ} (h : 0 ≤ q) : pyInt q = ⌊q⌋ := by
  rw [pyInt, if_neg (by linarith)]

theorem floor_gap_of_twenty {x : ℚ} {m : ℤ} (hm : 20 * x = (m : ℚ)) :
    x ≤ (⌊x⌋ : ℚ) + 19/20 := by
  have h1 : x < (⌊x⌋ : ℚ) + 1 := Int.lt_floor_add_one x
  have h2 : (m : ℚ) < 20 * (⌊x⌋ : ℚ) + 20 := by rw [← hm]; linarith
  have h3 : m < 20 * ⌊x⌋ + 20 := by exact_mod_cast h2
  have h4 : m ≤ 20 * ⌊x⌋ + 19 := by omega
  have h5 : (m : ℚ) ≤ 20 * (⌊x⌋ : ℚ) + 19 := by exact_mod_cast h4
  rw [← hm] at h5
  linarith

theorem tempoMult_facts (d : Difficulty) :
    1/2 ≤ tempoMultOf d ∧ tempoMultOf d ≤ 1 ∧
      |tempoMultOf d - tempoMultSpec d| ≤ 1 / 2 ^ 54 ∧
      tempoMultSpec d ≤ 1 := by
  cases d <;>
    refine ⟨by norm_num [tempoMultOf], by norm_num [tempoMultOf],
      abs_le.mpr ⟨by norm_num [tempoMultOf, tempoMultSpec],
        by norm_num [tempoMultOf, tempoMultSpec]⟩,
      by norm_num [tempoMultSpec]⟩

theorem tempoMultSpec_twenty (d : Difficulty) (base : ℤ) :
    ∃ m : ℤ, 20 * ((base : ℚ) * tempoMultSpec d) = (m : ℚ) := by
  cases d
  · exact ⟨14 * base, by simp only [tempoMultSpec]; push_cast; ring⟩
  · exact ⟨17 * base, by simp only [tempoMultSpec]; push_cast; ring⟩
  · exact ⟨20 * base, by simp only [tempoMultSpec]; push_cast; ring⟩

theorem tierTempo_band (base : ℤ) (d : Difficulty) (h0 : 0 ≤ base)
    (h1 : base ≤ 1000000) :
    ⌊(base : ℚ) * tempoMultSpec d⌋ - 1 ≤ tierTempo base d ∧
      tierTempo base d ≤ ⌊(base : ℚ) * tempoMultSpec d⌋ := by
  obtain ⟨hmd1, hmd2, hdiff, hms2⟩ := tempoMult_facts d
  rcases eq_or_lt_of_le h0 with hz | hpos
  · have hb0 : base = 0 := hz.symm
    subst hb0
    have hq : ((0:ℤ) : ℚ) * tempoMultOf d = 0 := by push_cast; ring
    have hx : ((0:ℤ) : ℚ) * tempoMultSpec d = 0 := by push_cast; ring
    rw [tierTempo, hq, hx]
    norm_num [doubleRound, pyInt]
  · have hb1 : (1:ℚ) ≤ (base:ℚ) := by exact_mod_cast hpos
    have hbM : (base:ℚ) ≤ 1000000 := by exact_mod_cast h1
    have hb0 : (0:ℚ) ≤ (base:ℚ) := by linarith
    have hq12 : 1/2 ≤ (base:ℚ) * tempoMultOf d := by nlinarith
    have hqle : (base:ℚ) * tempoMultOf d ≤ 1000000 := by nlinarith
    have hqlt : (base:ℚ) * tempoMultOf d < 2 ^ 53 := by
      have hlt : (1000000:ℚ) < 2 ^ 53 := by norm_num
      linarith
    have herr := doubleRound_err hq12 hqlt
    have hqx : |(base:ℚ) * tempoMultOf d - (base:ℚ) * tempoMultSpec d| ≤
        1000000 / 2 ^ 54 := by
      rw [← mul_sub, abs_mul, abs_of_nonneg hb0]
      calc (base:ℚ) * |tempoMultOf d - tempoMultSpec d|
          ≤ 1000000 * (1 / 2 ^ 54) :=
            mul_le_mul hbM hdiff (abs_nonneg _) (by norm_num)
        _ = 1000000 / 2 ^ 54 := by ring
    have hdivle : (base:ℚ) * tempoMultOf d / 2 ^ 53 ≤ 1000000 / 2 ^ 53 :=
      (div_le_div_right (by positivity : (0:ℚ) < 2 ^ 53)).mpr hqle
    have htri : |doubleRound ((base:ℚ) * tempoMultOf d) -
        (base:ℚ) * tempoMultSpec d| ≤
        1000000 / 2 ^ 53 + 1000000 / 2 ^ 54 := by
      calc |doubleRound ((base:ℚ) * tempoMultOf d) -
            (base:ℚ) * tempoMultSpec d|
          ≤ |doubleRound ((base:ℚ) * tempoMultOf d) -
              (base:ℚ) * tempoMultOf d| +
            |(base:ℚ) * tempoMultOf d - (base:ℚ) * tempoMultSpec d| :=
            abs_sub_le _ _ _
        _ ≤ 1000000 / 2 ^ 53 + 1000000 / 2 ^ 54 := by linarith
    have hsmall : (1000000:ℚ) / 2 ^ 53 + 1000000 / 2 ^ 54 < 1/1000 := by
      norm_num
    obtain ⟨habs1, habs2⟩ := abs_le.mp htri
    obtain ⟨m, hm⟩ := tempoMultSpec_twenty d base
    have hgap := floor_gap_of_twenty hm
    have hfloorle : ((⌊(base:ℚ) * tempoMultSpec d⌋ : ℤ) : ℚ) ≤
        (base:ℚ) * tempoMultSpec d := Int.floor_le _
    rw [tierTempo, pyInt_eq_floor (doubleRound_nonneg _)]
    constructor
    · rw [Int.le_floor]
      push_cast
      linarith
    · have hup : ⌊doubleRound ((base:ℚ) * tempoMultOf d)⌋ <
          ⌊(base:ℚ) * tempoMultSpec d⌋ + 1 := by
        rw [Int.floor_lt]
        push_cast
        linarith
      omega

/-- C8 counterexample: for base tempo 122 on the intermediate tier the code
computes `int(122 * 0.85) = int(103.7000000000000028...) = 103` (the IEEE
double product of `122` and the double `0.85`), while rounding the claimed
product `122 * 0.85 = 103.7` to the nearest integer gives `104` — `int()`
truncates, it does not round. -/
theorem C8_counterexample :
    tierTempo 122 Difficulty.intermediate = 103 ∧
    round ((122 : ℚ) * tempoMultSpec Difficulty.intermediate) = 104 := by
  with_unfolding_all decide

/-- C8 (amended): the tempo written into a tier's score is
`int(base * mult)` computed in IEEE binary64 arithmetic and truncated
toward zero — not rounded to the nearest integer.  For every nonnegative
base the truncation is the floor of the rounded double product, and for
every base up to `10^6` that floor equals the exact-arithmetic floor
`⌊base * mult⌋` or that floor minus one; the minus-one case really occurs:
`int(90 * 0.7)` is `62` although `90 * 0.70 = 63` exactly. -/
theorem C8_tempo_truncates :
    (∀ (base : ℤ) (d : Difficulty), 0 ≤ base →
      tierTempo base d = ⌊doubleRound ((base : ℚ) * tempoMultOf d)⌋) ∧
    (∀ (base : ℤ) (d : Difficulty), 0 ≤ base → base ≤ 1000000 →
      ⌊(base : ℚ) * tempoMultSpec d⌋ - 1 ≤ tierTempo base d ∧
        tierTempo base d ≤ ⌊(base : ℚ) * tempoMultSpec d⌋) ∧
    tierTempo 90 Difficulty.beginner = 62 ∧
    ⌊(90 : ℚ) * tempoMultSpec Difficulty.beginner⌋ = 63 := by
  refine ⟨?_, fun base d h0 h1 => tierTempo_band base d h0 h1, ?_, ?_⟩
  · intro base d _
    rw [tierTempo, pyInt_eq_floor (doubleRound_nonneg _)]
  · with_unfolding_all decide
  · with_unfolding_all decide

/-- C8 witness: the amended statement at base tempo 122, intermediate
tier. -/
theorem C8_witness :
    tierTempo 122 Difficulty.intermediate =
      ⌊doubleRound (((122 : ℤ) : ℚ) *
        tempoMultOf Difficulty.intermediate)⌋ ∧
    ⌊((122 : ℤ) : ℚ) * tempoMultSpec Difficulty.intermediate⌋ - 1 ≤
      tierTempo 122 Difficulty.intermediate ∧
    tierTempo 122 Difficulty.intermediate ≤
      ⌊((122 : ℤ) : ℚ) * tempoMultSpec Difficulty.intermediate⌋ :=
  ⟨C8_tempo_truncates.1 122 Difficulty.intermediate (by norm_num),
    (C8_tempo_truncates.2.1 122 Difficulty.intermediate (by norm_num)
      (by norm_num)).1,
    (C8_tempo_truncates.2.1 122 Difficulty.intermediate (by norm_num)
      (by norm_num)).2⟩

/-- C1 counterexample: a single raw note at offset `201` (beginner grid
`1/2`).  The leading gap of 201 quarter notes needs 51 greedy rests, but the
rest loop caps at 50, covering only `[0, 200)`; the note is still appended
at `201`, so the output (50 rests and the note, 51 events) has an adjacent
pair whose rounded end (`200`) differs from the next rounded offset
(`201`) — full coverage fails for unrestricted raw offsets. -/
theorem C1_counterexample :
    (fillGapsWithRests (quantizeEvents [(201, 1, 67)] (1/2) 0 (60, 74))
      (1/2)).length = 51 ∧
    round3
        (((fillGapsWithRests (quantizeEvents [(201, 1, 67)] (1/2) 0
            (60, 74)) (1/2)).getD 49 default).offset +
          ((fillGapsWithRests (quantizeEvents [(201, 1, 67)] (1/2) 0
            (60, 74)) (1/2)).getD 49 default).duration) ≠
      round3 (((fillGapsWithRests (quantizeEvents [(201, 1, 67)] (1/2) 0
        (60, 74)) (1/2)).getD 50 default).offset) := by
  with_unfolding_all decide

/-- C1 (amended): for every list of raw events with offsets in `[0, 75]`
(a bound under which every gap is tiled inside the 50-iteration rest cap)
and positive durations, and every tier grid, the timeline produced by
`_quantize_events` followed by `_fill_gaps_with_rests` starts at offset 0
and is gapless: each event's rounded end equals the next event's rounded
offset. -/
theorem C1_full_coverage :
    ∀ (events : List (ℚ × ℚ × ℤ)) (g : ℚ) (tr : ℤ) (lo hi : ℤ),
      g ∈ tierGrids →
      (∀ e ∈ events, 0 ≤ e.1 ∧ e.1 ≤ 75 ∧ 0 < e.2.1) →
      fillGapsWithRests (quantizeEvents events g tr (lo, hi)) g ≠ [] →
      ((fillGapsWithRests (quantizeEvents events g tr (lo, hi)) g).headD
        default).offset = 0 ∧
      List.Chain'
        (fun a b => round3 (a.offset + a.duration) = round3 b.offset)
        (fillGapsWithRests (quantizeEvents events g tr (lo, hi)) g) := by
  intro events g tr lo hi hg hev hne
  have hcov := pipeline_cover hg events tr lo hi
    (fun e he => (hev e he).1) (fun e he => (hev e he).2.1)
  constructor
  · rcases heq : fillGapsWithRests (quantizeEvents events g tr (lo, hi)) g
      with _ | ⟨x, xs⟩
    · exact absurd heq hne
    · rw [heq] at hcov
      exact hcov.1
  · exact (coversFrom_chain' hcov).imp fun _ _ h => congrArg round3 h

/-- C1 witness: the amended coverage statement at a concrete one-note
input. -/
theorem C1_witness :
    ((fillGapsWithRests (quantizeEvents [(0, 1, 60)] (1/2) 0 (60, 74))
      (1/2)).headD default).offset = 0 ∧
    List.Chain'
      (fun a b => round3 (a.offset + a.duration) = round3 b.offset)
      (fillGapsWithRests (quantizeEvents [(0, 1, 60)] (1/2) 0 (60, 74))
        (1/2)) :=
  C1_full_coverage [(0, 1, 60)] (1/2) 0 60 74
    (by with_unfolding_all decide)
    (by
      intro e he
      rw [List.mem_singleton] at he
      subst he
      norm_num)
    (by with_unfolding_all decide)

/-- C3: `_snap_to_standard_duration` always lands in the dot-free standard
set `{4, 2, 1, 1/2, 1/4, 1/8}` at or above the tier grid, and every event —
note or rest — of a tier's final timeline (`_quantize_events` then
`_fill_gaps_with_rests`) has such a duration. -/
theorem C3_standard_durations :
    (∀ (d g : ℚ), g ∈ tierGrids → 0 < d →
      snapToStandardDuration d g ∈ simpleDurations ∧
        g ≤ snapToStandardDuration d g) ∧
    (∀ (events : List (ℚ × ℚ × ℤ)) (g : ℚ) (tr : ℤ) (lo hi : ℤ),
      g ∈ tierGrids →
      ∀ e ∈ fillGapsWithRests (quantizeEvents events g tr (lo, hi)) g,
        e.duration ∈ simpleDurations ∧ g ≤ e.duration) := by
  constructor
  · intro d g hg _
    exact ⟨snapToStandardDuration_mem d (tierGrid_le_four hg),
      snapToStandardDuration_ge d g⟩
  · intro events g tr lo hi hg e he
    rcases pipeline_mem hg events tr lo hi e he with
      ⟨-, -, hmem, hge⟩ | ⟨n, hn, -, -, hdur, -⟩
    · exact ⟨hmem, hge⟩
    · obtain ⟨-, -, hmem, hge, -⟩ := quantizeEvents_mem hg events tr lo hi n hn
      rw [hdur]
      exact ⟨hmem, hge⟩

/-- C3 witness: both conjuncts at the concrete inputs `d = 3`, grid `1/2`,
and the one-note pipeline. -/
theorem C3_witness :
    (snapToStandardDuration 3 (1/2) ∈ simpleDurations ∧
      (1/2 : ℚ) ≤ snapToStandardDuration 3 (1/2)) ∧
    (∀ e ∈ fillGapsWithRests (quantizeEvents [(0, 1, 60)] (1/2) 0 (60, 74))
        (1/2), e.duration ∈ simpleDurations ∧ (1/2 : ℚ) ≤ e.duration) :=
  ⟨C3_standard_durations.1 3 (1/2) (by with_unfolding_all decide)
      (by norm_num),
    C3_standard_durations.2 [(0, 1, 60)] (1/2) 0 60 74
      (by with_unfolding_all decide)⟩

/-- C4: `_constrain_pitch` (octave shifts, then a hard clamp) always lands
inside `[low, high]` whenever `low ≤ high`; concretely pitch 100 with range
`(54, 84)` becomes 76; and every non-rest event of a tier's final timeline
carries a pitch inside the tier's range. -/
theorem C4_range_containment :
    (∀ (p lo hi : ℤ), lo ≤ hi →
      lo ≤ constrainPitch p (lo, hi) ∧ constrainPitch p (lo, hi) ≤ hi) ∧
    constrainPitch 100 (54, 84) = 76 ∧
    (∀ (events : List (ℚ × ℚ × ℤ)) (g : ℚ) (tr : ℤ) (lo hi : ℤ),
      g ∈ tierGrids → lo ≤ hi →
      ∀ e ∈ fillGapsWithRests (quantizeEvents events g tr (lo, hi)) g,
        e.isRest = false →
        ∃ p : ℤ, e.midiPitch = some p ∧ lo ≤ p ∧ p ≤ hi) := by
  refine ⟨fun p lo hi h => constrainPitch_mem h,
    by with_unfolding_all decide, ?_⟩
  intro events g tr lo hi hg hlohi e he hnotrest
  rcases pipeline_mem hg events tr lo hi e he with
    ⟨hrest, -⟩ | ⟨n, hn, -, -, -, hpitch⟩
  · rw [hnotrest] at hrest
    exact absurd hrest (by simp)
  · obtain ⟨-, ⟨p, hp, hrange⟩, -⟩ := quantizeEvents_mem hg events tr lo hi n hn
    exact ⟨p, by rw [hpitch, hp], (hrange hlohi).1, (hrange hlohi).2⟩

/-- C4 witness: the range statement at `p = 100`, range `(54, 84)`, plus
the pipeline conjunct at a concrete one-note input. -/
theorem C4_witness :
    (54 ≤ constrainPitch 100 (54, 84) ∧ constrainPitch 100 (54, 84) ≤ 84) ∧
    (∀ e ∈ fillGapsWithRests (quantizeEvents [(0, 1, 60)] (1/2) 0 (60, 74))
        (1/2), e.isRest = false →
      ∃ p : ℤ, e.midiPitch = some p ∧ 60 ≤ p ∧ p ≤ 74) :=
  ⟨C4_range_containment.1 100 54 84 (by norm_num),
    C4_range_containment.2.2 [(0, 1, 60)] (1/2) 0 60 74
      (by with_unfolding_all decide) (by norm_num)⟩

/-- C5: on a gap that is a positive multiple of the tier grid (and small
enough — `gap ≤ 75` keeps the greedy tiling well inside the 50-rest cap),
`_create_rests_for_duration` returns a non-empty contiguous run of rests
starting at the (3-decimal-rounded) start offset whose standard durations
are each at least the grid unit and sum exactly to the gap. -/
theorem C5_rest_tiling :
    ∀ (s g gap : ℚ) (k : ℕ), g ∈ tierGrids → 1 ≤ k →
      gap = (k : ℚ) * g → gap ≤ 75 →
      createRestsForDuration s gap g ≠ [] ∧
      tiles (round3 s) (createRestsForDuration s gap g) (round3 s + gap) ∧
      ((createRestsForDuration s gap g).map CleanNote.duration).sum = gap ∧
      ∀ r ∈ createRestsForDuration s gap g,
        r.isRest = true ∧ r.duration ∈ simpleDurations ∧
          g ≤ r.duration := by
  intro s g gap k hg hk hgap hb
  subst hgap
  have hgpos := tierGrid_pos hg
  have hkq : (1 : ℚ) ≤ (k : ℚ) := by exact_mod_cast hk
  have htile := createRests_tile hg (k := k) s (by linarith)
  have hne : createRestsForDuration s ((k : ℚ) * g) g ≠ [] := by
    refine tiles_ne_nil htile ?_
    intro hEq
    nlinarith
  refine ⟨hne, htile, ?_, ?_⟩
  · rw [tiles_sum htile]
    ring
  · intro r hr
    rw [createRestsForDuration] at hr
    obtain ⟨h1, -, h3, h4⟩ := restLoop_mem hg _ _ _ r hr
    exact ⟨h1, h3, h4⟩

/-- C5 witness: the tiling statement at start 0, gap 1, grid `1/2`. -/
theorem C5_witness :
    createRestsForDuration 0 1 (1/2) ≠ [] ∧
    tiles (round3 0) (createRestsForDuration 0 1 (1/2)) (round3 0 + 1) ∧
    ((createRestsForDuration 0 1 (1/2)).map CleanNote.duration).sum = 1 :=
  have h := C5_rest_tiling 0 (1/2) 1 2 (by with_unfolding_all decide)
    (by norm_num) (by norm_num) (by norm_num)
  ⟨h.1, h.2.1, h.2.2.1⟩

/-- C9: re-quantizing the quantizer's own output (read back as raw
`(offset, duration, pitch)` triples) with the same tier grid, the same
range, and transposition 0 reproduces that output exactly. -/
theorem C9_idempotent :
    ∀ (events : List (ℚ × ℚ × ℤ)) (g : ℚ) (tr : ℤ) (lo hi : ℤ),
      g ∈ tierGrids → lo ≤ hi →
      quantizeEvents ((quantizeEvents events g tr (lo, hi)).map toRaw) g 0
        (lo, hi) = quantizeEvents events g tr (lo, hi) :=
  fun events g tr lo hi hg hlohi => quantizeEvents_idem hg hlohi events tr

/-- C9 witness: idempotence at a concrete three-note input on the beginner
configuration. -/
theorem C9_witness :
    quantizeEvents ((quantizeEvents [(0, 1, 60), (1, 1, 64), (3, 1, 67)]
        (1/2) 0 (60, 74)).map toRaw) (1/2) 0 (60, 74) =
      quantizeEvents [(0, 1, 60), (1, 1, 64), (3, 1, 67)] (1/2) 0
        (60, 74) :=
  C9_idempotent [(0, 1, 60), (1, 1, 64), (3, 1, 67)] (1/2) 0 60 74
    (by with_unfolding_all decide) (by norm_num)

/-- C10: the non-rest events of `_fill_gaps_with_rests` form a sublist of
the input notes with offsets rounded to 3 decimals and durations, pitches
and relative order unchanged (so every event the filler adds is a rest),
and an input note whose rounded offset lies more than `0.001` before the
accumulated current time is omitted from the output entirely. -/
theorem C10_filler_frame :
    (∀ (notes : List CleanNote) (g : ℚ),
      List.Sublist
        ((fillGapsWithRests notes g).filter (fun e => !e.isRest))
        (notes.map fillImage)) ∧
    (∀ (g t : ℚ) (n : CleanNote) (ns : List CleanNote), 0 ≤ g →
      round3 n.offset < round3 t - 1/1000 →
      fillLoop g t (n :: ns) = fillLoop g (round3 t) ns) := by
  constructor
  · intro notes g
    unfold fillGapsWithRests
    rcases notes with _ | ⟨x, xs⟩
    · simp
    · exact fillLoop_sublist (x :: xs) 0
  · intro g t n ns hg h
    exact fillLoop_drop ns hg h

/-- C10 witness: the sublist statement at a concrete overlapping input and
the drop equation at a concrete late current time. -/
theorem C10_witness :
    List.Sublist
      ((fillGapsWithRests [⟨0, 4, some 60, false⟩, ⟨3, 1, some 64, false⟩]
        (1/2)).filter (fun e => !e.isRest))
      ([⟨0, 4, some 60, false⟩, ⟨3, 1, some 64, false⟩].map fillImage) ∧
    fillLoop (1/2) 5 [⟨0, 1, some 60, false⟩] =
      fillLoop (1/2) (round3 5) [] :=
  ⟨C10_filler_frame.1 [⟨0, 4, some 60, false⟩, ⟨3, 1, some 64, false⟩]
      (1/2),
    C10_filler_frame.2 (1/2) 5 ⟨0, 1, some 60, false⟩ []
      (by norm_num) (by with_unfolding_all decide)⟩
